import Mathlib

/-!
# AtomicLib: verification of the spec against the source

Shallow embedding of the sequential behaviour of the AtomicLib components
(`src/*.hpp`).  Concurrency is modelled by the single-threaded semantics:
every `compare_exchange` succeeds on its first attempt, so each CAS loop
runs its body once.  Machine integers (`int64_t`, `size_t`, `uint64_t`) are
modelled by `Int`/`Nat`; `double` values are modelled by `ℚ` (the operations
under study only compare and subtract, which floating point performs exactly
on the small concrete inputs used here, and the branch structure does not
depend on rounding).
-/

namespace AtomicLib

/-! ## BoundCounter (src/bound_counter.hpp)

State is the pair `(cap_, current_)`, both of signed arithmetic type,
modelled by `Int`.  `try_add` / `try_sub` embed the CAS loop bodies of
`BoundCounter::try_add` / `BoundCounter::try_sub`. -/

structure BoundCounter where
  cap : Int
  current : Int
deriving DecidableEq, Repr

def try_add (s : BoundCounter) (val : Int) : BoundCounter × Bool :=
  if val < 0 then (s, false)
  else if val > s.cap then (s, false)
  else if s.current > s.cap - val then (s, false)
  else ({ s with current := s.current + val }, true)

def try_sub (s : BoundCounter) (val : Int) : BoundCounter × Bool :=
  if val < 0 then (s, false)
  else if s.current < val then (s, false)
  else ({ s with current := s.current - val }, true)

/-! ## Bucket (src/bucket.hpp)

`Bucket::consume` only touches the atomic token count `current_`; the
refill thread is outside this claim.  `consume` embeds the guard
`n <= 0.0 → false` followed by the CAS loop `while (cur >= n)`. -/

def consume (cur : ℚ) (n : ℚ) : ℚ × Bool :=
  if n ≤ 0 then (cur, false)
  else if cur ≥ n then (cur - n, true)
  else (cur, false)

/-! ## AtomicClamp (src/atomic_clamp.hpp)

`AtomicClamp::clamp_to` on a current value `cur`; the element type is a
signed arithmetic type, modelled by `Int`. -/

def clamp_to (cur low high : Int) : Int × Bool :=
  if cur < low then (low, true)
  else if cur > high then (high, true)
  else (cur, false)

/-! ## MinMax (src/atomic_min_max.hpp)

For floating-point element types a value is either NaN or an ordinary
number; we model this as `Option ℚ` with `none` = NaN (the code tests
`isnan` before every ordering comparison, so comparisons only happen
between ordinary numbers).  For integer element types the `isnan`
branches are discarded by `if constexpr`; `int_update_min` /
`int_update_max` embed that instantiation over `Int`. -/

def update_min (cur v : Option ℚ) : Option ℚ × Bool :=
  match v with
  | none => (cur, false)
  | some vv =>
    match cur with
    | none => (some vv, true)
    | some cc =>
      if cc ≤ vv then (cur, false)
      else (some vv, true)

def update_max (cur v : Option ℚ) : Option ℚ × Bool :=
  match v with
  | none => (cur, false)
  | some vv =>
    match cur with
    | none => (some vv, true)
    | some cc =>
      if cc ≥ vv then (cur, false)
      else (some vv, true)

def int_update_min (cur v : Int) : Int × Bool :=
  if cur ≤ v then (cur, false) else (v, true)

def int_update_max (cur v : Int) : Int × Bool :=
  if cur ≥ v then (cur, false) else (v, true)

/-! ## Epoch reclamation scan (src/atomic_queue.hpp, EpochManager)

`advance_epoch` walks the thread-record list (each record carries an
`active` flag and an observed `epoch`) and bumps the global epoch by one
iff no active record lags; the weak CAS is modelled as succeeding.
`scanSplit` embeds the partition loop of `EpochManager::scan`: a retired
entry is a pair (node id, retirement epoch); entries with
`epoch ≤ safe_epoch` are reclaimed, the rest are retained, where
`safe_epoch = (cur >= 2) ? cur - 2 : 0`. -/

def advance_epoch (records : List (Bool × Nat)) (cur : Nat) : Nat :=
  if records.all (fun r => !r.1 || r.2 == cur) then cur + 1 else cur

def safe_epoch_of (cur : Nat) : Nat :=
  if 2 ≤ cur then cur - 2 else 0

def scanSplit (cur : Nat) (retired : List (Nat × Nat)) :
    List (Nat × Nat) × List (Nat × Nat) :=
  (retired.filter (fun r => r.2 ≤ safe_epoch_of cur),
   retired.filter (fun r => ¬ (r.2 ≤ safe_epoch_of cur)))

def scan (records : List (Bool × Nat)) (cur : Nat) (retired : List (Nat × Nat)) :
    Nat × List (Nat × Nat) × List (Nat × Nat) :=
  let cur' := advance_epoch records cur
  (cur', scanSplit cur' retired)

/-! ## RateLimiterCounter (src/rate_limiter_counter.hpp)

State is `(count_, window_start_ms_)` plus the constants
`(window_ms_, limit_)`.  `allow` embeds the sequential behaviour of
`RateLimiterCounter::allow` at a modelled clock value `now`: when the
window has expired the CAS on `window_start_ms_` succeeds, `count_` is
reset to 1 and the call is granted; otherwise a full counter rejects
(the window cannot have moved under a single thread) and an unfilled
counter CAS-increments and grants. -/

structure RateLimiter where
  window_ms : Int
  limit : Int
  count : Int
  window_start : Int
deriving DecidableEq, Repr

def allow (s : RateLimiter) (now : Int) : RateLimiter × Bool :=
  if now - s.window_start ≥ s.window_ms then
    ({ s with window_start := now, count := 1 }, true)
  else if s.count ≥ s.limit then (s, false)
  else ({ s with count := s.count + 1 }, true)

/-- Run a sequence of `allow` calls at the given clock values; each step
records (call time, `window_start` after the call, result). -/
def allowRun (s : RateLimiter) : List Int → List (Int × Int × Bool) × RateLimiter
  | [] => ([], s)
  | t :: ts =>
    let r := allow s t
    let rest := allowRun r.1 ts
    ((t, r.1.window_start, r.2) :: rest.1, rest.2)

/-- Number of granted calls whose post-call `window_start` equals `w`,
i.e. the grants accounted to the fixed window starting at `w`. -/
def trues_in_window (w : Int) (out : List (Int × Int × Bool)) : Nat :=
  out.countP (fun e => e.2.1 == w && e.2.2)

/-! ## RingBuffer (src/atomic_ring.hpp)

`RingBuffer<EleType, Cap>` is embedded with `head_`/`tail_`/per-slot
`seq` counters as `Nat` (64-bit unsigned cursors that only ever
increment; unsigned wraparound is astronomically out of reach of any
finite run, and the code's signed-difference comparison of `seq` and
`pos` coincides with the `Nat` comparison below it).  `Cap` is a
template parameter, `static_assert`ed to be a power of two; the slot
index is `pos & kMask` with `kMask = Cap - 1`.  A slot's element cell is
`Option` so a logically-empty (moved-from) cell is `none`.  The
sequential retry branches (`diff > 0`, impossible without interference
from another thread) leave the state unchanged and would loop forever,
which the embedding reports as `none` (divergence). -/

structure Slot (A : Type) where
  seq : Nat
  ele : Option A

structure RingState (A : Type) where
  head : Nat
  tail : Nat
  slots : Nat → Slot A

/-- Constructor: `head_ = tail_ = 0`, `slots_[i].seq = i`. -/
def initRing (A : Type) : RingState A :=
  { head := 0, tail := 0, slots := fun i => { seq := i, ele := none } }

def enqueue_impl (Cap : Nat) (s : RingState A) (ele : A) :
    Option (RingState A × Bool) :=
  let pos := s.tail
  let idx := pos &&& (Cap - 1)
  let seq := (s.slots idx).seq
  if seq = pos then
    some ({ s with
            tail := pos + 1,
            slots := fun j =>
              if j = idx then { seq := pos + 1, ele := some ele }
              else s.slots j },
          true)
  else if seq < pos then some (s, false)
  else none

def try_dequeue (Cap : Nat) (s : RingState A) :
    Option (RingState A × (Bool × Option A)) :=
  let pos := s.head
  let idx := pos &&& (Cap - 1)
  let seq := (s.slots idx).seq
  if seq = pos + 1 then
    some ({ s with
            head := pos + 1,
            slots := fun j =>
              if j = idx then { seq := pos + Cap, ele := none }
              else s.slots j },
          (true, (s.slots idx).ele))
  else if seq < pos + 1 then some (s, (false, none))
  else none

/-- Operations of a queue client. -/
inductive RingOp (A : Type) where
  | enq (x : A)
  | deq

def ringStep (Cap : Nat) (s : RingState A) :
    RingOp A → Option (RingState A × (Bool × Option A))
  | .enq x => (enqueue_impl Cap s x).map (fun r => (r.1, (r.2, none)))
  | .deq => try_dequeue Cap s

/-- Run a sequence of operations, collecting each operation's observable
result (`try_enqueue`'s boolean; `try_dequeue`'s boolean and value). -/
def ringRun (Cap : Nat) (s : RingState A) :
    List (RingOp A) → Option (RingState A × List (Bool × Option A))
  | [] => some (s, [])
  | op :: ops =>
    (ringStep Cap s op).bind fun r =>
      (ringRun Cap r.1 ops).map fun rest => (rest.1, r.2 :: rest.2)

/-- The bounded FIFO queue of capacity `Cap` that the claim compares the
ring against (this definition follows the spec's words, not the code). -/
def absEnq (Cap : Nat) (xs : List A) (x : A) : List A × Bool :=
  if xs.length < Cap then (xs ++ [x], true) else (xs, false)

def absDeq (xs : List A) : List A × (Bool × Option A) :=
  match xs with
  | [] => ([], (false, none))
  | y :: ys => (ys, (true, some y))

def absRun (Cap : Nat) (xs : List A) :
    List (RingOp A) → List A × List (Bool × Option A)
  | [] => (xs, [])
  | .enq x :: ops =>
    let r := absEnq Cap xs x
    let rest := absRun Cap r.1 ops
    (rest.1, (r.2, none) :: rest.2)
  | .deq :: ops =>
    let r := absDeq xs
    let rest := absRun Cap r.1 ops
    (rest.1, r.2 :: rest.2)

/-- Refinement relation: the ring state `s` stores exactly the list `xs`
(oldest first), slot `(head + i) % Cap` holding `xs[i]` with its `seq`
published, and every slot for a position in `[tail, head + Cap)` empty at
its ready-to-produce sequence number. -/
def RingInv (Cap : Nat) (s : RingState A) (xs : List A) : Prop :=
  s.head ≤ s.tail ∧
  s.tail ≤ s.head + Cap ∧
  xs.length = s.tail - s.head ∧
  (∀ i : Nat, i < xs.length →
    (s.slots ((s.head + i) % Cap)).seq = s.head + i + 1 ∧
    (s.slots ((s.head + i) % Cap)).ele = xs[i]?) ∧
  (∀ p : Nat, s.tail ≤ p → p < s.head + Cap → (s.slots (p % Cap)).seq = p)

/-! ## LFU (src/lfu.hpp)

The cache state mirrors the members of `LFU<KeyTp, ValTp>`:
`key_to_freq_` (`std::map<K, size_t>`) and `freq_to_list_`
(`std::unordered_map<size_t, std::list<LFU_KV>>`) as association lists,
`key_to_iter_` (`std::map<K, List::iterator>`) as its key domain — the
stored iterator dereferences to the unique node carrying that key inside
its bucket, which is how the embedding reads a node through it — plus
`min_freq_`, `cap_`, `cur_cnt_`.  `alookup`/`aset`/`aerase` model map
find / `operator[]`-assign / erase; `bextract` models reading a node
through its iterator and splicing it out of its bucket.  All operations
run under the instance mutex, hence sequentially. -/

def alookup [DecidableEq α] (a : α) : List (α × β) → Option β
  | [] => none
  | (k, v) :: rest => if k = a then some v else alookup a rest

def aset [DecidableEq α] (a : α) (b : β) : List (α × β) → List (α × β)
  | [] => [(a, b)]
  | (k, v) :: rest => if k = a then (k, b) :: rest else (k, v) :: aset a b rest

def aerase [DecidableEq α] (a : α) : List (α × β) → List (α × β)
  | [] => []
  | (k, v) :: rest => if k = a then rest else (k, v) :: aerase a rest

/-- Locate the first node keyed `k` in a bucket and unlink it (the
embedding of dereferencing the stored iterator and splicing the node
out); returns the node and the remaining bucket. -/
def bextract [DecidableEq κ] (k : κ) :
    List (κ × ν) → Option ((κ × ν) × List (κ × ν))
  | [] => none
  | (k', v) :: rest =>
    if k' = k then some ((k', v), rest)
    else
      match bextract k rest with
      | none => none
      | some (node, rest') => some (node, (k', v) :: rest')

structure LFUState (K V : Type) where
  key_to_freq : List (K × Nat)
  freq_to_list : List (Nat × List (K × V))
  key_to_iter : List K
  min_freq : Nat
  cap : Nat
  cur_cnt : Nat

variable {K V : Type} [DecidableEq K]

/-- `LFU::get` (shared-pointer overload): miss paths return the state
unchanged; a hit moves the node to the tail of the next-frequency
bucket, bumps its frequency, erases the source bucket if it emptied
(advancing `min_freq_` when it was the minimum) and returns the value. -/
def lfu_get (s : LFUState K V) (key : K) : LFUState K V × Option V :=
  match alookup key s.key_to_freq with
  | none => (s, none)
  | some freq =>
    match alookup freq s.freq_to_list with
    | none => (s, none)
    | some fromList =>
      if key ∈ s.key_to_iter then
        match bextract key fromList with
        | none => (s, none)
        | some (node, fromRest) =>
          let toList := (alookup (freq + 1) s.freq_to_list).getD []
          let FB1 := aset (freq + 1) (toList ++ [node]) s.freq_to_list
          let FB2 := aset freq fromRest FB1
          let FB3 := if fromRest.isEmpty then aerase freq FB2 else FB2
          let mf := if fromRest.isEmpty ∧ s.min_freq = freq
            then freq + 1 else s.min_freq
          ({ s with
             key_to_freq := aset key (freq + 1) s.key_to_freq,
             freq_to_list := FB3,
             min_freq := mf }, some node.2)
      else (s, none)

/-- `LFU::get(key, out)` returns the hit/miss boolean of `get`. -/
def lfu_get_b (s : LFUState K V) (key : K) : LFUState K V × Bool :=
  let r := lfu_get s key
  (r.1, r.2.isSome)

/-- `LFU::get_copy` calls `get` and copies the value out. -/
def lfu_get_copy (s : LFUState K V) (key : K) : LFUState K V × Option V :=
  lfu_get s key

/-- `LFU::get_locked` performs the state transition of `get` (its body
repeats the same promotion), returning the handle. -/
def lfu_get_locked (s : LFUState K V) (key : K) : LFUState K V × Option V :=
  lfu_get s key

/-- `LFU::put_impl`.  `val = none` models a null `shared_ptr`. -/
def lfu_put_impl (s : LFUState K V) (key : K) (val : Option V) : LFUState K V :=
  if s.cap = 0 then s
  else
    match val with
    | none => s
    | some v =>
      match alookup key s.key_to_freq with
      | some freq =>
        match alookup freq s.freq_to_list with
        | none => s
        | some fromList =>
          if key ∈ s.key_to_iter then
            match bextract key fromList with
            | none => s
            | some (node, fromRest) =>
              let node' := (node.1, v)
              let toList := (alookup (freq + 1) s.freq_to_list).getD []
              let FB1 := aset (freq + 1) (toList ++ [node']) s.freq_to_list
              let FB2 := aset freq fromRest FB1
              let FB3 := if fromRest.isEmpty then aerase freq FB2 else FB2
              let mf := if fromRest.isEmpty ∧ s.min_freq = freq
                then freq + 1 else s.min_freq
              { s with
                key_to_freq := aset key (freq + 1) s.key_to_freq,
                freq_to_list := FB3,
                min_freq := mf }
          else s
      | none =>
        let s1 :=
          if s.cap ≤ s.cur_cnt then
            match alookup s.min_freq s.freq_to_list with
            | none => s
            | some lst =>
              match lst with
              | [] => { s with freq_to_list := aerase s.min_freq s.freq_to_list }
              | victim :: rest =>
                let s2 := { s with
                  key_to_iter := s.key_to_iter.erase victim.1,
                  key_to_freq := aerase victim.1 s.key_to_freq,
                  cur_cnt := s.cur_cnt - 1 }
                if rest.isEmpty then
                  { s2 with freq_to_list := aerase s.min_freq s.freq_to_list }
                else
                  { s2 with freq_to_list := aset s.min_freq rest s.freq_to_list }
          else s
        let lst1 := (alookup 1 s1.freq_to_list).getD []
        { s1 with
          freq_to_list := aset 1 (lst1 ++ [(key, v)]) s1.freq_to_list,
          key_to_iter :=
            if key ∈ s1.key_to_iter then s1.key_to_iter
            else s1.key_to_iter ++ [key],
          key_to_freq := aset key 1 s1.key_to_freq,
          min_freq := 1,
          cur_cnt := s1.cur_cnt + 1 }

/-- `LFU::put(key, val)` (value overloads build a non-null pointer). -/
def lfu_put (s : LFUState K V) (key : K) (v : V) : LFUState K V :=
  lfu_put_impl s key (some v)

/-- `LFU(cap)` constructor: empty maps, `min_freq_ = 0`, `cur_cnt_ = 0`. -/
def lfu_init (K V : Type) (cap : Nat) : LFUState K V :=
  { key_to_freq := [], freq_to_list := [], key_to_iter := [],
    min_freq := 0, cap := cap, cur_cnt := 0 }

/-- The structural invariant of the cache (claim C5): map key sets are
duplicate-free, `|KF| = |KN| = Count ≤ Capacity`, `KN` is exactly the
domain of `KF`, every key's locator resolves into the bucket of its
recorded frequency, buckets present in `FB` are non-empty and consistent
with `KF`, and when the cache is non-empty `MinFreq` is present in `FB`
and is the least frequency present. -/
def LFUInv (s : LFUState K V) : Prop :=
  (s.key_to_freq.map Prod.fst).Nodup ∧
  s.key_to_iter.Nodup ∧
  (s.freq_to_list.map Prod.fst).Nodup ∧
  (∀ fb ∈ s.freq_to_list, (fb.2.map Prod.fst).Nodup) ∧
  s.key_to_freq.length = s.cur_cnt ∧
  s.key_to_iter.length = s.cur_cnt ∧
  s.cur_cnt ≤ s.cap ∧
  (∀ k ∈ s.key_to_iter, (alookup k s.key_to_freq).isSome = true) ∧
  (∀ kv ∈ s.key_to_freq, kv.1 ∈ s.key_to_iter) ∧
  (∀ kv ∈ s.key_to_freq,
    kv.1 ∈ ((alookup kv.2 s.freq_to_list).getD []).map Prod.fst) ∧
  (∀ fb ∈ s.freq_to_list, 0 < fb.2.length ∧
    ∀ node ∈ fb.2, alookup node.1 s.key_to_freq = some fb.1) ∧
  (0 < s.cur_cnt →
    (alookup s.min_freq s.freq_to_list).isSome = true ∧
    ∀ fb ∈ s.freq_to_list, s.min_freq ≤ fb.1) ∧
  (∀ fb ∈ s.freq_to_list, 1 ≤ fb.1)

instance (s : LFUState K V) : Decidable (LFUInv s) := by
  unfold LFUInv
  infer_instance

/-! ### Theorems: scalar family -/

/-- C6: `BoundCounter.try_add v` succeeds and sets `cur + v` iff
`0 ≤ v ∧ v ≤ cap ∧ cur ≤ cap - v`, otherwise fails leaving the state
unchanged; `try_sub v` succeeds and sets `cur - v` iff `0 ≤ v ∧ v ≤ cur`;
consequently, from a value in `[0, cap]` both operations keep the value
in `[0, cap]`. -/
theorem try_add_try_sub_spec (cap cur val : Int) (hcap : 0 ≤ cap) :
    (try_add ⟨cap, cur⟩ val =
      if 0 ≤ val ∧ val ≤ cap ∧ cur ≤ cap - val
      then (⟨cap, cur + val⟩, true) else (⟨cap, cur⟩, false)) ∧
    (try_sub ⟨cap, cur⟩ val =
      if 0 ≤ val ∧ val ≤ cur
      then (⟨cap, cur - val⟩, true) else (⟨cap, cur⟩, false)) ∧
    (0 ≤ cur → cur ≤ cap →
      (0 ≤ (try_add ⟨cap, cur⟩ val).1.current ∧
        (try_add ⟨cap, cur⟩ val).1.current ≤ cap ∧
        0 ≤ (try_sub ⟨cap, cur⟩ val).1.current ∧
        (try_sub ⟨cap, cur⟩ val).1.current ≤ cap)) := by
  refine ⟨?_, ?_, ?_⟩
  · unfold try_add
    dsimp only
    by_cases h1 : val < 0
    · rw [if_pos h1, if_neg (by rintro ⟨h, -⟩; omega)]
    · rw [if_neg h1]
      by_cases h2 : val > cap
      · rw [if_pos h2, if_neg (by rintro ⟨-, h, -⟩; omega)]
      · rw [if_neg h2]
        by_cases h3 : cur > cap - val
        · rw [if_pos h3, if_neg (by rintro ⟨-, -, h⟩; omega)]
        · rw [if_neg h3, if_pos ⟨by omega, by omega, by omega⟩]
  · unfold try_sub
    dsimp only
    by_cases h1 : val < 0
    · rw [if_pos h1, if_neg (by rintro ⟨h, -⟩; omega)]
    · rw [if_neg h1]
      by_cases h2 : cur < val
      · rw [if_pos h2, if_neg (by rintro ⟨-, h⟩; omega)]
      · rw [if_neg h2, if_pos ⟨by omega, by omega⟩]
  · intro h0 h1
    unfold try_add try_sub
    dsimp only
    split_ifs <;> dsimp only <;> omega

/-- Witness for C6 at the spec scenario `BoundCounter(5)`:
`try_add 3` from 3 fails, `try_sub 2` from 3 succeeds. -/
theorem try_add_try_sub_spec_witness :
    (try_add ⟨5, 3⟩ 3 =
      if 0 ≤ (3:Int) ∧ (3:Int) ≤ 5 ∧ (3:Int) ≤ 5 - 3
      then (⟨5, 3 + 3⟩, true) else (⟨5, 3⟩, false)) ∧
    (try_sub ⟨5, 3⟩ 2 =
      if 0 ≤ (2:Int) ∧ (2:Int) ≤ 3
      then (⟨5, 3 - 2⟩, true) else (⟨5, 3⟩, false)) :=
  ⟨(try_add_try_sub_spec 5 3 3 (by decide)).1,
   (try_add_try_sub_spec 5 3 2 (by decide)).2.1⟩

/-- C7 counterexample: the claim says `consume` returns true whenever
`current ≥ n`, for every `n`; but at `current = 5`, `n = 0` the guard
`n <= 0.0` makes the code return false although `current ≥ n`. -/
theorem consume_counterexample :
    (0:ℚ) ≤ 5 ∧ consume 5 0 = (5, false) := by
  constructor
  · norm_num
  · rfl

/-- C7 (amended): `consume cur n` returns true and decrements by `n`
exactly when `0 < n` and `n ≤ cur`; otherwise (insufficient tokens, or a
non-positive request) it returns false and leaves the count unchanged. -/
theorem consume_spec (cur n : ℚ) :
    consume cur n = if 0 < n ∧ n ≤ cur then (cur - n, true) else (cur, false) := by
  unfold consume
  by_cases h1 : n ≤ 0
  · rw [if_pos h1, if_neg (by rintro ⟨h2, -⟩; linarith)]
  · rw [if_neg h1]
    by_cases h2 : cur ≥ n
    · rw [if_pos h2, if_pos ⟨lt_of_not_le h1, h2⟩]
    · rw [if_neg h2, if_neg (by rintro ⟨-, h3⟩; exact h2 h3)]

/-- C8: under the precondition `low ≤ high`, `clamp_to` raises a value
below `low` to `low` (returning true), lowers a value above `high` to
`high` (returning true), and otherwise reports false leaving the value
unchanged; whenever it returns true the new value lies in `[low, high]`. -/
theorem clamp_to_spec (cur low high : Int) (h : low ≤ high) :
    (cur < low → clamp_to cur low high = (low, true)) ∧
    (high < cur → clamp_to cur low high = (high, true)) ∧
    (low ≤ cur → cur ≤ high → clamp_to cur low high = (cur, false)) ∧
    ((clamp_to cur low high).2 = true →
      low ≤ (clamp_to cur low high).1 ∧ (clamp_to cur low high).1 ≤ high) := by
  unfold clamp_to
  refine ⟨?_, ?_, ?_, ?_⟩ <;> intros <;> split_ifs <;>
    simp_all <;> omega

/-- Witness for C8 at the spec scenario `Clamp(5)`:
`clamp_to(0,10)` leaves 5, `clamp_to(6,10)` raises to 6,
then `clamp_to(-5,3)` lowers 6 to 3. -/
theorem clamp_to_spec_witness :
    clamp_to 5 0 10 = (5, false) ∧
    clamp_to 5 6 10 = (6, true) ∧
    clamp_to 6 (-5) 3 = (3, true) :=
  ⟨(clamp_to_spec 5 0 10 (by decide)).2.2.1 (by decide) (by decide),
   (clamp_to_spec 5 6 10 (by decide)).1 (by decide),
   (clamp_to_spec 6 (-5) 3 (by decide)).2.1 (by decide)⟩

/-- C9: `update_min` returns false on a NaN proposal; replaces a NaN
current value unconditionally; otherwise succeeds exactly when the
proposal is strictly below the current value.  `update_max` is symmetric,
and the integer instantiation (NaN branches elided) succeeds iff
`cur > v` (resp. `cur < v`). -/
theorem update_min_max_spec :
    (∀ cur : Option ℚ, update_min cur none = (cur, false)) ∧
    (∀ vv : ℚ, update_min none (some vv) = (some vv, true)) ∧
    (∀ cc vv : ℚ, update_min (some cc) (some vv) =
      if cc ≤ vv then (some cc, false) else (some vv, true)) ∧
    (∀ cur : Option ℚ, update_max cur none = (cur, false)) ∧
    (∀ vv : ℚ, update_max none (some vv) = (some vv, true)) ∧
    (∀ cc vv : ℚ, update_max (some cc) (some vv) =
      if vv ≤ cc then (some cc, false) else (some vv, true)) ∧
    (∀ cur v : Int, (int_update_min cur v).2 = true ↔ v < cur) ∧
    (∀ cur v : Int, (int_update_max cur v).2 = true ↔ cur < v) := by
  refine ⟨fun cur => rfl, fun vv => rfl, ?_, fun cur => rfl, fun vv => rfl, ?_, ?_, ?_⟩
  · intro cc vv
    simp only [update_min]
  · intro cc vv
    simp only [update_max, ge_iff_le]
  · intro cur v
    unfold int_update_min
    split_ifs with h <;> simp <;> omega
  · intro cur v
    unfold int_update_max
    split_ifs with h <;> simp <;> omega

/-! ### Theorem: epoch scan (C1) -/

/-- C1: evaluation of `scan` at the failing input.  With one registered
record that is active at epoch 0 and a global epoch of 1 the advance
attempt fails, so the epoch after the attempt is `1 < 2`; the claim (and
the spec's two-epoch quarantine contract) then demands that no retired
node be freed, but the code clamps `safe_epoch` to 0 and reclaims the
node retired at epoch 0. -/
theorem scan_frees_node_below_epoch_two :
    scan [(true, 0)] 1 [(7, 0)] = (1, [(7, 0)], []) := rfl

/-! ### Theorems: rate limiter (C4) -/

/-- Counting grants in a window distributes over a trace step. -/
theorem trues_in_window_cons (w tm ws : Int) (b : Bool)
    (out : List (Int × Int × Bool)) :
    trues_in_window w ((tm, ws, b) :: out) =
      trues_in_window w out + (if ws = w ∧ b = true then 1 else 0) := by
  unfold trues_in_window
  rw [List.countP_cons]
  by_cases hws : ws = w <;> by_cases hb : b = true <;> simp [hws, hb]

/-- Helper invariant for `allowRun`: grants accounted to windows earlier
than the current one are over; the current window can still take at most
`limit - count` grants; any later window takes at most `limit`. -/
theorem allow_run_window_bound (times : List Int) :
    ∀ s : RateLimiter, 1 ≤ s.window_ms → 1 ≤ s.limit → ∀ w : Int,
      (w < s.window_start → trues_in_window w (allowRun s times).1 = 0) ∧
      ((trues_in_window s.window_start (allowRun s times).1 : Int) ≤
        max (s.limit - s.count) 0) ∧
      (s.window_start < w →
        (trues_in_window w (allowRun s times).1 : Int) ≤ s.limit) := by
  induction times with
  | nil =>
    intro s hw hl w
    refine ⟨fun _ => rfl, ?_, fun _ => ?_⟩
    · simp only [allowRun, trues_in_window, List.countP_nil, Nat.cast_zero]
      exact le_max_right _ _
    · simp only [allowRun, trues_in_window, List.countP_nil, Nat.cast_zero]
      omega
  | cons t ts ih =>
    intro s hw hl w
    by_cases hreset : t - s.window_start ≥ s.window_ms
    · -- window expired: reset to (window_start := t, count := 1), grant
      have hts : s.window_start < t := by omega
      have ihA := ih { s with window_start := t, count := 1 } hw hl
      simp only [allowRun, allow, if_pos hreset]
      dsimp only at ihA
      refine ⟨fun hlt => ?_, ?_, fun hgt => ?_⟩
      · rw [trues_in_window_cons, if_neg (by rintro ⟨h, -⟩; omega),
          (ihA w).1 (by omega)]
      · rw [trues_in_window_cons, if_neg (by rintro ⟨h, -⟩; omega),
          (ihA s.window_start).1 hts]
        simpa using le_max_right (s.limit - s.count) 0
      · rcases lt_trichotomy w t with hwt | hwt | hwt
        · rw [trues_in_window_cons, if_neg (by rintro ⟨h, -⟩; omega),
            (ihA w).1 hwt]
          simp only [Nat.add_zero, Nat.cast_zero]
          omega
        · subst hwt
          rw [trues_in_window_cons, if_pos ⟨rfl, rfl⟩]
          have h2 := (ihA w).2.1
          push_cast at h2 ⊢
          omega
        · rw [trues_in_window_cons, if_neg (by rintro ⟨h, -⟩; omega)]
          have h3 := (ihA w).2.2 hwt
          push_cast at h3 ⊢
          omega
    · by_cases hfull : s.count ≥ s.limit
      · -- window current, counter full: reject, state unchanged
        have ihA := ih s hw hl
        simp only [allowRun, allow, if_neg hreset, if_pos hfull]
        refine ⟨fun hlt => ?_, ?_, fun hgt => ?_⟩
        · rw [trues_in_window_cons, if_neg (by rintro ⟨-, h⟩; simp at h),
            (ihA w).1 hlt]
        · rw [trues_in_window_cons, if_neg (by rintro ⟨-, h⟩; simp at h)]
          have h2 := (ihA s.window_start).2.1
          push_cast at h2 ⊢
          omega
        · rw [trues_in_window_cons, if_neg (by rintro ⟨-, h⟩; simp at h)]
          have h3 := (ihA w).2.2 hgt
          push_cast at h3 ⊢
          omega
      · -- window current, counter below limit: grant and increment
        have ihA := ih { s with count := s.count + 1 } hw hl
        simp only [allowRun, allow, if_neg hreset, if_neg hfull]
        dsimp only at ihA
        refine ⟨fun hlt => ?_, ?_, fun hgt => ?_⟩
        · rw [trues_in_window_cons, if_neg (by rintro ⟨h, -⟩; omega),
            (ihA w).1 hlt]
        · rw [trues_in_window_cons, if_pos ⟨rfl, rfl⟩]
          have h2 := (ihA s.window_start).2.1
          push_cast at h2 ⊢
          omega
        · rw [trues_in_window_cons, if_neg (by rintro ⟨h, -⟩; omega)]
          have h3 := (ihA w).2.2 hgt
          push_cast at h3 ⊢
          omega

/-- C4 counterexample: the claim bounds the grants inside *any* window of
length `window_ms`.  With `window_ms = 50`, `limit = 3` and calls at
times 0, 40, 45, 50, 51, 52 every call is granted (the limiter's own
windows are [0,50) and [50,...)), and the single length-50 window
`[40, 90)` contains five grants, exceeding the limit 3. -/
theorem allow_sliding_window_counterexample :
    ((allowRun ⟨50, 3, 0, 0⟩ [0, 40, 45, 50, 51, 52]).1.countP
      (fun e => decide (40 ≤ e.1) && decide (e.1 < 40 + 50) && e.2.2) = 5) ∧
    ¬ ((5 : Int) ≤ 3) := by decide

/-- C4 (amended): with `window_ms ≥ 1` and `limit ≥ 1`, starting from the
initial state, every *fixed window of the limiter* (the maximal run of
calls observing one value of `window_start`) grants at most `limit`
calls; the limiter may under-admit but a single fixed window never
over-admits. -/
theorem allow_fixed_window_bound (wm limit : Int) (hw : 1 ≤ wm)
    (hl : 1 ≤ limit) (times : List Int) (w : Int) :
    (trues_in_window w (allowRun ⟨wm, limit, 0, 0⟩ times).1 : Int) ≤ limit := by
  obtain ⟨h1, h2, h3⟩ := allow_run_window_bound times ⟨wm, limit, 0, 0⟩ hw hl w
  rcases lt_trichotomy w 0 with h | h | h
  · rw [h1 h]
    omega
  · subst h
    have : max (limit - (0:Int)) 0 = limit := by omega
    rw [this] at h2
    exact h2
  · exact h3 h

/-- Witness for C4 (amended) at `window_ms = 50`, `limit = 3`, the call
times of the counterexample, and the fixed window starting at 50. -/
theorem allow_fixed_window_bound_witness :
    (trues_in_window 50
      (allowRun ⟨50, 3, 0, 0⟩ [0, 40, 45, 50, 51, 52]).1 : Int) ≤ 3 :=
  allow_fixed_window_bound 50 3 (by decide) (by decide) [0, 40, 45, 50, 51, 52] 50

/-! ### Theorems: ring buffer (C2) -/

/-- Two positions of one ring window agree modulo `Cap` only if equal. -/
theorem ring_pos_mod_inj (Cap a b lo : Nat) (hCap : 0 < Cap)
    (ha1 : lo ≤ a) (ha2 : a < lo + Cap) (hb1 : lo ≤ b) (hb2 : b < lo + Cap)
    (h : a % Cap = b % Cap) : a = b := by
  rcases le_total a b with hab | hab
  · have hdvd : Cap ∣ b - a := (Nat.modEq_iff_dvd' hab).mp h
    have h0 : b - a = 0 := Nat.eq_zero_of_dvd_of_lt hdvd (by omega)
    omega
  · have hdvd : Cap ∣ a - b := (Nat.modEq_iff_dvd' hab).mp h.symm
    have h0 : a - b = 0 := Nat.eq_zero_of_dvd_of_lt hdvd (by omega)
    omega

/-- Enqueue on a non-full ring takes the `diff == 0` branch, stores the
element and publishes the slot; the refinement relation carries over to
`xs ++ [x]`. -/
theorem enqueue_impl_sim_notfull (k : Nat) (s : RingState A) (xs : List A)
    (x : A) (hinv : RingInv (2^k) s xs) (hlt : xs.length < 2^k) :
    enqueue_impl (2^k) s x =
      some ({ s with
              tail := s.tail + 1,
              slots := fun j =>
                if j = s.tail % 2^k then { seq := s.tail + 1, ele := some x }
                else s.slots j },
            true) ∧
    RingInv (2^k)
      { s with
        tail := s.tail + 1,
        slots := fun j =>
          if j = s.tail % 2^k then { seq := s.tail + 1, ele := some x }
          else s.slots j }
      (xs ++ [x]) := by
  obtain ⟨h1, h2, h3, hocc, hemp⟩ := hinv
  have hCap : 0 < 2^k := Nat.two_pow_pos k
  have htail : s.tail < s.head + 2^k := by omega
  have hmask : s.tail &&& (2^k - 1) = s.tail % 2^k :=
    Nat.and_pow_two_sub_one_eq_mod _ _
  have hseq : (s.slots (s.tail % 2^k)).seq = s.tail := hemp s.tail le_rfl htail
  constructor
  · simp only [enqueue_impl]
    rw [hmask, hseq, if_pos rfl]
  · refine ⟨by dsimp only; omega, by dsimp only; omega, ?_, ?_, ?_⟩
    · dsimp only
      rw [List.length_append]
      dsimp only [List.length]
      omega
    · intro i hi
      rw [List.length_append] at hi
      dsimp only [List.length] at hi
      dsimp only
      by_cases hi' : i < xs.length
      · have hne : (s.head + i) % 2^k ≠ s.tail % 2^k := by
          intro hEq
          have := ring_pos_mod_inj (2^k) (s.head + i) s.tail s.head hCap
            (by omega) (by omega) (by omega) (by omega) hEq
          omega
        rw [if_neg hne, List.getElem?_append_left hi']
        exact hocc i hi'
      · have hieq : i = xs.length := by omega
        have hpos : s.head + i = s.tail := by omega
        rw [hpos, hieq, List.getElem?_concat_length, if_pos rfl]
        exact ⟨rfl, rfl⟩
    · intro p hp1 hp2
      dsimp only at hp1 hp2 ⊢
      have hne : p % 2^k ≠ s.tail % 2^k := by
        intro hEq
        have := ring_pos_mod_inj (2^k) p s.tail s.head hCap
          (by omega) (by omega) (by omega) (by omega) hEq
        omega
      rw [if_neg hne]
      exact hemp p (by omega) (by omega)

/-- Enqueue on a full ring (`Cap ≥ 2`) reads the occupied head slot,
sees `diff < 0` and reports full without touching the state. -/
theorem enqueue_impl_sim_full (k : Nat) (hk : 1 ≤ k) (s : RingState A)
    (xs : List A) (x : A) (hinv : RingInv (2^k) s xs)
    (hlen : xs.length = 2^k) :
    enqueue_impl (2^k) s x = some (s, false) := by
  obtain ⟨h1, h2, h3, hocc, hemp⟩ := hinv
  have hCap2 : 2 ≤ 2^k := by
    calc 2 = 2^1 := by norm_num
    _ ≤ 2^k := Nat.pow_le_pow_right (by norm_num) hk
  have htail : s.tail = s.head + 2^k := by omega
  have hmask : s.tail &&& (2^k - 1) = s.tail % 2^k :=
    Nat.and_pow_two_sub_one_eq_mod _ _
  have hidx : s.tail % 2^k = s.head % 2^k := by
    rw [htail]
    exact Nat.add_mod_right _ _
  have hseq : (s.slots (s.head % 2^k)).seq = s.head + 1 := by
    have h0 := (hocc 0 (by omega)).1
    simpa using h0
  simp only [enqueue_impl]
  rw [hmask, hidx, hseq, if_neg (by omega), if_pos (by omega)]

/-- Dequeue on an empty ring reads the ready-to-produce slot at `head`,
sees `diff < 0` and reports empty without touching the state. -/
theorem try_dequeue_sim_empty (k : Nat) (s : RingState A)
    (hinv : RingInv (2^k) s ([] : List A)) :
    try_dequeue (2^k) s = some (s, (false, none)) := by
  obtain ⟨h1, h2, h3, hocc, hemp⟩ := hinv
  have hCap : 0 < 2^k := Nat.two_pow_pos k
  have hht : s.head = s.tail := by
    dsimp only [List.length] at h3
    omega
  have hmask : s.head &&& (2^k - 1) = s.head % 2^k :=
    Nat.and_pow_two_sub_one_eq_mod _ _
  have hseq : (s.slots (s.head % 2^k)).seq = s.head :=
    hemp s.head (by omega) (by omega)
  simp only [try_dequeue]
  rw [hmask, hseq, if_neg (by omega), if_pos (by omega)]

/-- Dequeue on a non-empty ring takes the `diff == 0` branch, moves the
oldest element out and republishes the slot for the next lap; the
refinement relation carries over to the tail of the list. -/
theorem try_dequeue_sim_cons (k : Nat) (s : RingState A) (y : A)
    (ys : List A) (hinv : RingInv (2^k) s (y :: ys)) :
    try_dequeue (2^k) s =
      some ({ s with
              head := s.head + 1,
              slots := fun j =>
                if j = s.head % 2^k then { seq := s.head + 2^k, ele := none }
                else s.slots j },
            (true, some y)) ∧
    RingInv (2^k)
      { s with
        head := s.head + 1,
        slots := fun j =>
          if j = s.head % 2^k then { seq := s.head + 2^k, ele := none }
          else s.slots j }
      ys := by
  obtain ⟨h1, h2, h3, hocc, hemp⟩ := hinv
  have hCap : 0 < 2^k := Nat.two_pow_pos k
  have hlen : (y :: ys).length = ys.length + 1 := rfl
  have hht : s.head < s.tail := by omega
  have hmask : s.head &&& (2^k - 1) = s.head % 2^k :=
    Nat.and_pow_two_sub_one_eq_mod _ _
  have hseq : (s.slots (s.head % 2^k)).seq = s.head + 1 := by
    have h0 := (hocc 0 (by omega)).1
    simpa using h0
  have hele : (s.slots (s.head % 2^k)).ele = some y := by
    have h0 := (hocc 0 (by omega)).2
    simpa using h0
  constructor
  · simp only [try_dequeue]
    rw [hmask, hseq, if_pos rfl, hele]
  · refine ⟨by dsimp only; omega, by dsimp only; omega, by dsimp only; omega, ?_, ?_⟩
    · intro i hi
      dsimp only
      have hne : (s.head + 1 + i) % 2^k ≠ s.head % 2^k := by
        intro hEq
        have := ring_pos_mod_inj (2^k) (s.head + 1 + i) s.head s.head hCap
          (by omega) (by omega) (by omega) (by omega) hEq
        omega
      rw [if_neg hne]
      have h0 := hocc (i + 1) (by dsimp only [List.length]; omega)
      have harr : s.head + (i + 1) = s.head + 1 + i := by omega
      rw [harr] at h0
      refine ⟨h0.1, ?_⟩
      rw [h0.2]
      simp
    · intro p hp1 hp2
      dsimp only at hp1 hp2 ⊢
      by_cases hp : p = s.head + 2^k
      · have : p % 2^k = s.head % 2^k := by
          rw [hp]
          exact Nat.add_mod_right _ _
        rw [this, if_pos rfl, hp]
      · have hne : p % 2^k ≠ s.head % 2^k := by
          intro hEq
          have := ring_pos_mod_inj (2^k) p s.head s.head hCap
            (by omega) (by omega) (by omega) (by omega) hEq
          omega
        rw [if_neg hne]
        exact hemp p (by omega) (by omega)

/-- The freshly constructed ring satisfies the refinement relation with
the empty queue. -/
theorem initRing_inv (A : Type) (Cap : Nat) (hCap : 0 < Cap) :
    RingInv Cap (initRing A) ([] : List A) := by
  refine ⟨le_rfl, by dsimp only [initRing]; omega, rfl, ?_, ?_⟩
  · intro i hi
    simp at hi
  · intro p hp1 hp2
    dsimp only [initRing] at hp2 ⊢
    exact Nat.mod_eq_of_lt (by omega)

/-- `Option.bind` on a present value reduces to the continuation. -/
theorem option_some_bind {α β : Type} (a : α) (f : α → Option β) :
    (some a).bind f = f a := rfl

/-- Any operation sequence run on the ring from a state refining `xs`
produces exactly the observations of the capacity-`Cap` FIFO on `xs`
(and in particular never diverges). -/
theorem ringRun_sim (k : Nat) (hk : 1 ≤ k) (ops : List (RingOp A)) :
    ∀ (s : RingState A) (xs : List A), RingInv (2^k) s xs →
      (ringRun (2^k) s ops).map Prod.snd = some (absRun (2^k) xs ops).2 := by
  induction ops with
  | nil => intro s xs _; rfl
  | cons op ops ih =>
    intro s xs hinv
    cases op with
    | enq x =>
      rcases Nat.lt_or_ge xs.length (2^k) with hlt | hge
      · obtain ⟨heq, hinv'⟩ := enqueue_impl_sim_notfull k s xs x hinv hlt
        have ihr := ih _ _ hinv'
        cases hrun : ringRun (2^k) _ ops with
        | none =>
          rw [hrun] at ihr
          simp at ihr
        | some r =>
          rw [hrun] at ihr
          simp only [Option.map_some', Option.some.injEq] at ihr
          simp only [ringRun, ringStep, heq, Option.map_some', option_some_bind,
            hrun, absRun, absEnq, if_pos hlt, Option.some.injEq]
          rw [ihr]
      · have hlen : xs.length = 2^k := by
          obtain ⟨h1, h2, h3, -, -⟩ := hinv
          omega
        have heq := enqueue_impl_sim_full k hk s xs x hinv hlen
        have ihr := ih _ _ hinv
        cases hrun : ringRun (2^k) s ops with
        | none =>
          rw [hrun] at ihr
          simp at ihr
        | some r =>
          rw [hrun] at ihr
          simp only [Option.map_some', Option.some.injEq] at ihr
          simp only [ringRun, ringStep, heq, Option.map_some', option_some_bind,
            hrun, absRun, absEnq, if_neg (by omega : ¬ xs.length < 2^k),
            Option.some.injEq]
          rw [ihr]
    | deq =>
      cases xs with
      | nil =>
        have heq := try_dequeue_sim_empty k s hinv
        have ihr := ih _ _ hinv
        cases hrun : ringRun (2^k) s ops with
        | none =>
          rw [hrun] at ihr
          simp at ihr
        | some r =>
          rw [hrun] at ihr
          simp only [Option.map_some', Option.some.injEq] at ihr
          simp only [ringRun, ringStep, heq, Option.map_some', option_some_bind,
            hrun, absRun, absDeq, Option.some.injEq]
          rw [ihr]
      | cons y ys =>
        obtain ⟨heq, hinv'⟩ := try_dequeue_sim_cons k s y ys hinv
        have ihr := ih _ _ hinv'
        cases hrun : ringRun (2^k) _ ops with
        | none =>
          rw [hrun] at ihr
          simp at ihr
        | some r =>
          rw [hrun] at ihr
          simp only [Option.map_some', Option.some.injEq] at ihr
          simp only [ringRun, ringStep, heq, Option.map_some', option_some_bind,
            hrun, absRun, absDeq, Option.some.injEq]
          rw [ihr]

/-- C2 counterexample: `Cap = 1` is a power of two, so it passes the
static_assert, but on the full one-slot ring the second `try_enqueue`
still sees `seq - pos == 0` (the published `seq = 1` equals the new
`tail = 1`) and succeeds, overwriting the stored element, where the
bounded FIFO of capacity 1 returns false. -/
theorem ring_cap_one_counterexample :
    (ringRun 1 (initRing Nat) [.enq 1, .enq 2]).map Prod.snd =
      some [(true, none), (true, none)] ∧
    (absRun 1 [] ([.enq 1, .enq 2] : List (RingOp Nat))).2 =
      [(true, none), (false, none)] :=
  ⟨rfl, rfl⟩

/-- C2 (amended): for every capacity `Cap = 2^k` with `k ≥ 1` (a power
of two of at least 2), every single-threaded operation sequence on the
ring terminates and observes exactly the bounded FIFO of capacity `Cap`:
`try_enqueue` succeeds iff fewer than `Cap` elements are stored,
`try_dequeue` returns the oldest element and fails iff empty. -/
theorem ring_refines_bounded_fifo (A : Type) (k : Nat) (hk : 1 ≤ k)
    (ops : List (RingOp A)) :
    (ringRun (2^k) (initRing A) ops).map Prod.snd =
      some (absRun (2^k) [] ops).2 :=
  ringRun_sim k hk ops (initRing A) [] (initRing_inv A (2^k) (Nat.two_pow_pos k))

/-- Witness for C2 at the spec scenario `Ring(8)`: enqueue 1, 2 then
dequeue three times yields 1, 2, false (and the FIFO observations are
that concrete list). -/
theorem ring_refines_bounded_fifo_witness :
    (ringRun (2^3) (initRing Nat)
        [.enq 1, .enq 2, .deq, .deq, .deq]).map Prod.snd =
      some (absRun (2^3) []
        ([.enq 1, .enq 2, .deq, .deq, .deq] : List (RingOp Nat))).2 ∧
    (absRun (2^3) []
        ([.enq 1, .enq 2, .deq, .deq, .deq] : List (RingOp Nat))).2 =
      [(true, none), (true, none), (true, some 1), (true, some 2),
        (false, none)] :=
  ⟨ring_refines_bounded_fifo Nat 3 (by decide) _, by decide⟩

/-! ### Theorems: LFU association-list and bucket lemmas -/

theorem alookup_mem [DecidableEq α] {a : α} {b : β} {l : List (α × β)}
    (h : alookup a l = some b) : (a, b) ∈ l := by
  induction l with
  | nil => simp [alookup] at h
  | cons kv rest ih =>
    obtain ⟨k, v⟩ := kv
    simp only [alookup] at h
    by_cases hk : k = a
    · rw [if_pos hk] at h
      injection h with h
      subst hk h
      exact List.mem_cons_self _ _
    · rw [if_neg hk] at h
      exact List.mem_cons_of_mem _ (ih h)

theorem mem_keys_of_alookup [DecidableEq α] {a : α} {b : β} {l : List (α × β)}
    (h : alookup a l = some b) : a ∈ l.map Prod.fst :=
  List.mem_map.mpr ⟨(a, b), alookup_mem h, rfl⟩

theorem alookup_isSome_of_mem_keys [DecidableEq α] {a : α} {l : List (α × β)}
    (h : a ∈ l.map Prod.fst) : (alookup a l).isSome = true := by
  induction l with
  | nil => simp at h
  | cons kv rest ih =>
    obtain ⟨k, v⟩ := kv
    simp only [alookup]
    by_cases hk : k = a
    · rw [if_pos hk]
      rfl
    · rw [if_neg hk]
      refine ih ?_
      simp only [List.map_cons, List.mem_cons] at h
      rcases h with h | h
      · exact absurd h.symm hk
      · exact h

theorem alookup_eq_none_of_not_mem_keys [DecidableEq α] {a : α}
    {l : List (α × β)} (h : a ∉ l.map Prod.fst) : alookup a l = none := by
  induction l with
  | nil => rfl
  | cons kv rest ih =>
    obtain ⟨k, v⟩ := kv
    simp only [List.map_cons, List.mem_cons, not_or] at h
    have hka : k ≠ a := fun hk => h.1 hk.symm
    simp only [alookup, if_neg hka]
    exact ih h.2

theorem alookup_of_mem_nodup [DecidableEq α] {a : α} {b : β} {l : List (α × β)}
    (hnd : (l.map Prod.fst).Nodup) (h : (a, b) ∈ l) : alookup a l = some b := by
  induction l with
  | nil => simp at h
  | cons kv rest ih =>
    obtain ⟨k, v⟩ := kv
    simp only [List.map_cons, List.nodup_cons] at hnd
    rcases List.mem_cons.mp h with h | h
    · simp only [Prod.mk.injEq] at h
      obtain ⟨hk, hv⟩ := h
      subst hk hv
      simp [alookup]
    · have hka : k ≠ a := by
        intro hk
        subst hk
        exact hnd.1 (List.mem_map.mpr ⟨(k, b), h, rfl⟩)
      simp only [alookup, if_neg hka]
      exact ih hnd.2 h

theorem alookup_aset_self [DecidableEq α] (a : α) (b : β) (l : List (α × β)) :
    alookup a (aset a b l) = some b := by
  induction l with
  | nil => simp [aset, alookup]
  | cons kv rest ih =>
    obtain ⟨k, v⟩ := kv
    by_cases hk : k = a
    · simp [aset, if_pos hk, alookup, hk]
    · simp [aset, if_neg hk, alookup, if_neg hk, ih]

theorem alookup_aset_ne [DecidableEq α] {a a' : α} (b : β) (l : List (α × β))
    (h : a' ≠ a) : alookup a' (aset a b l) = alookup a' l := by
  have haa : a ≠ a' := fun hk => h hk.symm
  induction l with
  | nil => simp [aset, alookup, if_neg haa]
  | cons kv rest ih =>
    obtain ⟨k, v⟩ := kv
    by_cases hk : k = a
    · subst hk
      simp [aset, alookup, if_neg haa]
    · simp only [aset, if_neg hk, alookup]
      by_cases hk' : k = a'
      · simp [if_pos hk']
      · simp [if_neg hk', ih]

theorem keys_aset_of_mem [DecidableEq α] {a : α} (b : β) {l : List (α × β)}
    (h : a ∈ l.map Prod.fst) : (aset a b l).map Prod.fst = l.map Prod.fst := by
  induction l with
  | nil => simp at h
  | cons kv rest ih =>
    obtain ⟨k, v⟩ := kv
    by_cases hk : k = a
    · simp [aset, if_pos hk]
    · simp only [List.map_cons, List.mem_cons] at h
      rcases h with h | h
      · exact absurd h.symm hk
      · simp [aset, if_neg hk, ih h]

theorem keys_aset_of_not_mem [DecidableEq α] {a : α} (b : β) {l : List (α × β)}
    (h : a ∉ l.map Prod.fst) :
    (aset a b l).map Prod.fst = l.map Prod.fst ++ [a] := by
  induction l with
  | nil => simp [aset]
  | cons kv rest ih =>
    obtain ⟨k, v⟩ := kv
    simp only [List.map_cons, List.mem_cons, not_or] at h
    have hka : k ≠ a := fun hk => h.1 hk.symm
    simp [aset, if_neg hka, ih h.2]

theorem mem_aset_elim [DecidableEq α] {a : α} {b : β} {l : List (α × β)}
    {kv : α × β} (h : kv ∈ aset a b l) : (kv.1 = a ∧ kv.2 = b) ∨ kv ∈ l := by
  induction l with
  | nil =>
    simp only [aset, List.mem_singleton] at h
    subst h
    exact Or.inl ⟨rfl, rfl⟩
  | cons kv' rest ih =>
    obtain ⟨k, v⟩ := kv'
    by_cases hk : k = a
    · simp only [aset, if_pos hk, List.mem_cons] at h
      rcases h with h | h
      · subst h
        exact Or.inl ⟨hk, rfl⟩
      · right
        exact List.mem_cons_of_mem _ h
    · simp only [aset, if_neg hk, List.mem_cons] at h
      rcases h with h | h
      · right
        exact List.mem_cons.mpr (Or.inl h)
      · rcases ih h with h' | h'
        · exact Or.inl h'
        · exact Or.inr (List.mem_cons_of_mem _ h')

theorem mem_aset_of_mem_ne [DecidableEq α] {a : α} (b : β) {l : List (α × β)}
    {kv : α × β} (h : kv ∈ l) (hne : kv.1 ≠ a) : kv ∈ aset a b l := by
  induction l with
  | nil => simp at h
  | cons kv' rest ih =>
    obtain ⟨k, v⟩ := kv'
    rcases List.mem_cons.mp h with h | h
    · subst h
      have hk : k ≠ a := hne
      simp only [aset, if_neg hk]
      exact List.mem_cons_self _ _
    · by_cases hk : k = a
      · simp only [aset, if_pos hk]
        exact List.mem_cons_of_mem _ h
      · simp only [aset, if_neg hk]
        exact List.mem_cons_of_mem _ (ih h)

theorem length_aset_of_mem [DecidableEq α] {a : α} (b : β) {l : List (α × β)}
    (h : a ∈ l.map Prod.fst) : (aset a b l).length = l.length := by
  have := keys_aset_of_mem (l := l) b h
  have h1 : ((aset a b l).map Prod.fst).length = (l.map Prod.fst).length :=
    congrArg List.length this
  simpa using h1

theorem keys_aerase [DecidableEq α] (a : α) (l : List (α × β)) :
    (aerase a l).map Prod.fst = (l.map Prod.fst).erase a := by
  induction l with
  | nil => rfl
  | cons kv rest ih =>
    obtain ⟨k, v⟩ := kv
    by_cases hk : k = a
    · subst hk
      simp [aerase, List.erase_cons_head]
    · rw [show ((k, v) :: rest).map Prod.fst = k :: rest.map Prod.fst from rfl,
        List.erase_cons_tail (by simpa using hk)]
      simp [aerase, if_neg hk, ih]

theorem mem_aerase [DecidableEq α] {a : α} {l : List (α × β)} {kv : α × β}
    (h : kv ∈ aerase a l) : kv ∈ l := by
  induction l with
  | nil => simp [aerase] at h
  | cons kv' rest ih =>
    obtain ⟨k, v⟩ := kv'
    by_cases hk : k = a
    · simp only [aerase, if_pos hk] at h
      exact List.mem_cons_of_mem _ h
    · simp only [aerase, if_neg hk, List.mem_cons] at h
      rcases h with h | h
      · exact List.mem_cons.mpr (Or.inl h)
      · exact List.mem_cons_of_mem _ (ih h)

theorem mem_aerase_of_ne [DecidableEq α] {a : α} {l : List (α × β)}
    {kv : α × β} (h : kv ∈ l) (hne : kv.1 ≠ a) : kv ∈ aerase a l := by
  induction l with
  | nil => simp at h
  | cons kv' rest ih =>
    obtain ⟨k, v⟩ := kv'
    rcases List.mem_cons.mp h with h | h
    · subst h
      have hk : k ≠ a := hne
      simp only [aerase, if_neg hk]
      exact List.mem_cons_self _ _
    · by_cases hk : k = a
      · simp only [aerase, if_pos hk]
        exact h
      · simp only [aerase, if_neg hk]
        exact List.mem_cons_of_mem _ (ih h)

theorem alookup_aerase_ne [DecidableEq α] {a a' : α} (l : List (α × β))
    (h : a' ≠ a) : alookup a' (aerase a l) = alookup a' l := by
  have haa : a ≠ a' := fun hk => h hk.symm
  induction l with
  | nil => rfl
  | cons kv rest ih =>
    obtain ⟨k, v⟩ := kv
    by_cases hk : k = a
    · subst hk
      simp [aerase, alookup, if_neg haa]
    · simp only [aerase, if_neg hk, alookup]
      by_cases hk' : k = a'
      · simp [if_pos hk']
      · simp [if_neg hk', ih]

theorem alookup_aerase_self [DecidableEq α] {a : α} {l : List (α × β)}
    (hnd : (l.map Prod.fst).Nodup) : alookup a (aerase a l) = none := by
  refine alookup_eq_none_of_not_mem_keys ?_
  rw [keys_aerase]
  exact hnd.not_mem_erase

theorem length_aerase_of_mem [DecidableEq α] {a : α} {l : List (α × β)}
    (h : a ∈ l.map Prod.fst) : l.length = (aerase a l).length + 1 := by
  have h1 := congrArg List.length (keys_aerase a l)
  rw [List.length_erase_of_mem h] at h1
  simp only [List.length_map] at h1
  have h2 : 0 < l.length := by
    cases l with
    | nil => simp at h
    | cons kv rest => simp
  omega

theorem bextract_isSome_of_mem_keys [DecidableEq κ] {k : κ} {b : List (κ × ν)}
    (h : k ∈ b.map Prod.fst) : (bextract k b).isSome = true := by
  induction b with
  | nil => simp at h
  | cons kv rest ih =>
    obtain ⟨k', v⟩ := kv
    by_cases hk : k' = k
    · simp [bextract, if_pos hk]
    · simp only [List.map_cons, List.mem_cons] at h
      rcases h with h | h
      · exact absurd h.symm hk
      · simp only [bextract, if_neg hk]
        have := ih h
        cases hb : bextract k rest with
        | none => rw [hb] at this; simp at this
        | some r => simp

theorem bextract_spec [DecidableEq κ] {k : κ} {b : List (κ × ν)}
    {node : κ × ν} {rest : List (κ × ν)}
    (h : bextract k b = some (node, rest)) :
    node.1 = k ∧ node ∈ b ∧ b.length = rest.length + 1 ∧
    (∀ kv ∈ rest, kv ∈ b) ∧ (∀ kv ∈ b, kv = node ∨ kv ∈ rest) ∧
    rest.map Prod.fst = (b.map Prod.fst).erase k := by
  induction b generalizing node rest with
  | nil => simp [bextract] at h
  | cons kv tail ih =>
    obtain ⟨k', v⟩ := kv
    by_cases hk : k' = k
    · simp only [bextract, if_pos hk, Option.some.injEq, Prod.mk.injEq] at h
      obtain ⟨hnode, hrest⟩ := h
      subst hnode hrest
      refine ⟨hk, List.mem_cons_self _ _, by simp, ?_, ?_, ?_⟩
      · exact fun kv hkv => List.mem_cons_of_mem _ hkv
      · intro kv hkv
        rcases List.mem_cons.mp hkv with h | h
        · exact Or.inl h
        · exact Or.inr h
      · subst hk
        simp [List.erase_cons_head]
    · simp only [bextract, if_neg hk] at h
      cases hb : bextract k tail with
      | none => rw [hb] at h; simp at h
      | some r =>
        obtain ⟨node', rest'⟩ := r
        rw [hb] at h
        simp only [Option.some.injEq, Prod.mk.injEq] at h
        obtain ⟨hnode, hrest⟩ := h
        subst hnode
        obtain ⟨ih1, ih2, ih3, ih4, ih5, ih6⟩ := ih hb
        subst hrest
        refine ⟨ih1, List.mem_cons_of_mem _ ih2, by simp [ih3], ?_, ?_, ?_⟩
        · intro kv hkv
          rcases List.mem_cons.mp hkv with h | h
          · exact h ▸ List.mem_cons_self _ _
          · exact List.mem_cons_of_mem _ (ih4 kv h)
        · intro kv hkv
          rcases List.mem_cons.mp hkv with h | h
          · exact Or.inr (h ▸ List.mem_cons_self _ _)
          · rcases ih5 kv h with h' | h'
            · exact Or.inl h'
            · exact Or.inr (List.mem_cons_of_mem _ h')
        · rw [show (((k', v) :: rest').map Prod.fst : List κ) =
              k' :: rest'.map Prod.fst from rfl,
            show (((k', v) :: tail).map Prod.fst : List κ) =
              k' :: tail.map Prod.fst from rfl,
            List.erase_cons_tail (by simpa using hk), ih6]

theorem mem_aset_elim_nodup [DecidableEq α] {a : α} {b : β} {l : List (α × β)}
    (hnd : (l.map Prod.fst).Nodup) {kv : α × β} (h : kv ∈ aset a b l) :
    (kv.1 = a ∧ kv.2 = b) ∨ (kv ∈ l ∧ kv.1 ≠ a) := by
  rcases mem_aset_elim h with h' | h'
  · exact Or.inl h'
  · by_cases hka : kv.1 = a
    · left
      refine ⟨hka, ?_⟩
      have h1 : alookup a l = some kv.2 := by
        have := alookup_of_mem_nodup hnd (show (kv.1, kv.2) ∈ l from h')
        rwa [hka] at this
      have h2 : alookup a (aset a b l) = some b := alookup_aset_self a b l
      have h3 : alookup a (aset a b l) = some kv.2 := by
        have hnd' : ((aset a b l).map Prod.fst).Nodup := by
          by_cases hm : a ∈ l.map Prod.fst
          · rwa [keys_aset_of_mem b hm]
          · rw [keys_aset_of_not_mem b hm]
            simp only [List.nodup_append, List.nodup_cons, List.not_mem_nil,
              not_false_iff, List.nodup_nil, and_true, true_and]
            refine ⟨hnd, fun x hx hx' => ?_⟩
            simp only [List.mem_singleton] at hx'
            exact hm (hx' ▸ hx)
        have := alookup_of_mem_nodup hnd' (show (kv.1, kv.2) ∈ aset a b l from h)
        rwa [hka] at this
      rw [h2] at h3
      injection h3 with h3
      exact h3.symm
    · exact Or.inr ⟨h', hka⟩

theorem key_ne_of_mem_aerase [DecidableEq α] {a : α} {l : List (α × β)}
    (hnd : (l.map Prod.fst).Nodup) {kv : α × β} (h : kv ∈ aerase a l) :
    kv.1 ≠ a := by
  intro hka
  have h1 : kv.1 ∈ (aerase a l).map Prod.fst := List.mem_map.mpr ⟨kv, h, rfl⟩
  rw [keys_aerase, hka] at h1
  exact hnd.not_mem_erase h1

/-- Promotion preserves the LFU invariant: moving the node of `key` from
bucket `freq` to the tail of bucket `freq + 1` (with a possibly replaced
value `nv`), bumping `KF[key]`, erasing the source bucket when it
empties, and advancing `min_freq` when the erased bucket was minimal.
This is the shared mutation of `get`, `get_locked` and the existing-key
branch of `put_impl`. -/
theorem lfu_promote_inv (s : LFUState K V) (key : K) (freq : Nat)
    (fromList fromRest : List (K × V)) (node : K × V) (nv : V)
    (hinv : LFUInv s)
    (hkf : alookup key s.key_to_freq = some freq)
    (hfb : alookup freq s.freq_to_list = some fromList)
    (hkn : key ∈ s.key_to_iter)
    (hext : bextract key fromList = some (node, fromRest)) :
    LFUInv
      { s with
        key_to_freq := aset key (freq + 1) s.key_to_freq,
        freq_to_list :=
          if fromRest.isEmpty
          then aerase freq (aset freq fromRest (aset (freq + 1)
            (((alookup (freq + 1) s.freq_to_list).getD []) ++ [(node.1, nv)])
            s.freq_to_list))
          else aset freq fromRest (aset (freq + 1)
            (((alookup (freq + 1) s.freq_to_list).getD []) ++ [(node.1, nv)])
            s.freq_to_list),
        min_freq := if fromRest.isEmpty ∧ s.min_freq = freq
          then freq + 1 else s.min_freq } := by
  obtain ⟨nd_kf, nd_kn, nd_fb, nd_bk, len_kf, len_kn, hcap, kn_some, kf_kn,
    kf_loc, fb_ok, hmin, fb_ge1⟩ := hinv
  obtain ⟨hn1, hn2, hn3, hn4, hn5, hn6⟩ := bextract_spec hext
  have hfbmem : (freq, fromList) ∈ s.freq_to_list := alookup_mem hfb
  have hfreq_mem : freq ∈ s.freq_to_list.map Prod.fst :=
    List.mem_map.mpr ⟨_, hfbmem, rfl⟩
  have hkey_mem : key ∈ s.key_to_freq.map Prod.fst := mem_keys_of_alookup hkf
  have hfl_nd : (fromList.map Prod.fst).Nodup := nd_bk _ hfbmem
  have hfr_nd : (fromRest.map Prod.fst).Nodup := by
    rw [hn6]
    exact hfl_nd.erase _
  have hkey_not_fr : key ∉ fromRest.map Prod.fst := by
    rw [hn6]
    exact hfl_nd.not_mem_erase
  have hfsucc : freq ≠ freq + 1 := by omega
  -- facts about the target bucket freq+1
  have htl_ok : ∀ nd ∈ (alookup (freq + 1) s.freq_to_list).getD [],
      alookup nd.1 s.key_to_freq = some (freq + 1) := by
    intro nd hnd
    cases ht : alookup (freq + 1) s.freq_to_list with
    | none => rw [ht] at hnd; simp at hnd
    | some t =>
      rw [ht] at hnd
      exact (fb_ok _ (alookup_mem ht)).2 nd hnd
  have htl_nd : (((alookup (freq + 1) s.freq_to_list).getD []).map
      Prod.fst).Nodup := by
    cases ht : alookup (freq + 1) s.freq_to_list with
    | none => simp
    | some t => exact nd_bk _ (alookup_mem ht)
  have hkey_not_tl :
      key ∉ ((alookup (freq + 1) s.freq_to_list).getD []).map Prod.fst := by
    intro hmem
    obtain ⟨nd, hnd, hnd1⟩ := List.mem_map.mp hmem
    have := htl_ok nd hnd
    rw [hnd1, hkf] at this
    injection this with this
    omega
  -- the new bucket at freq+1
  have hB_keys : (((alookup (freq + 1) s.freq_to_list).getD [] ++
      [(node.1, nv)]).map Prod.fst) =
      ((alookup (freq + 1) s.freq_to_list).getD []).map Prod.fst ++ [key] := by
    rw [List.map_append, hn1]
    rfl
  have hB_nd : ((((alookup (freq + 1) s.freq_to_list).getD []) ++
      [(node.1, nv)]).map Prod.fst).Nodup := by
    rw [hB_keys, List.nodup_append]
    exact ⟨htl_nd, List.nodup_singleton _,
      fun x hx hx' => hkey_not_tl ((List.mem_singleton.mp hx') ▸ hx)⟩
  have hB_ok : ∀ nd ∈ ((alookup (freq + 1) s.freq_to_list).getD []) ++
      [(node.1, nv)],
      alookup nd.1 (aset key (freq + 1) s.key_to_freq) = some (freq + 1) := by
    intro nd hnd
    rcases List.mem_append.mp hnd with h | h
    · have hne : nd.1 ≠ key := by
        intro he
        exact hkey_not_tl (he ▸ List.mem_map.mpr ⟨nd, h, rfl⟩)
      rw [alookup_aset_ne _ _ hne]
      exact htl_ok nd h
    · rw [List.mem_singleton.mp h, hn1]
      exact alookup_aset_self _ _ _
  -- FB1 = aset (freq+1) B s.freq_to_list
  have nd_fb1 : ((aset (freq + 1)
      (((alookup (freq + 1) s.freq_to_list).getD []) ++ [(node.1, nv)])
      s.freq_to_list).map Prod.fst).Nodup := by
    by_cases hm : (freq + 1) ∈ s.freq_to_list.map Prod.fst
    · rwa [keys_aset_of_mem _ hm]
    · rw [keys_aset_of_not_mem _ hm, List.nodup_append]
      exact ⟨nd_fb, List.nodup_singleton _,
        fun x hx hx' => hm ((List.mem_singleton.mp hx') ▸ hx)⟩
  have hfreq_mem1 : freq ∈ (aset (freq + 1)
      (((alookup (freq + 1) s.freq_to_list).getD []) ++ [(node.1, nv)])
      s.freq_to_list).map Prod.fst := by
    by_cases hm : (freq + 1) ∈ s.freq_to_list.map Prod.fst
    · rwa [keys_aset_of_mem _ hm]
    · rw [keys_aset_of_not_mem _ hm]
      exact List.mem_append.mpr (Or.inl hfreq_mem)
  have nd_fb2 : ((aset freq fromRest (aset (freq + 1)
      (((alookup (freq + 1) s.freq_to_list).getD []) ++ [(node.1, nv)])
      s.freq_to_list)).map Prod.fst).Nodup := by
    rwa [keys_aset_of_mem _ hfreq_mem1]
  -- lookup facts about FB2
  have L2 : alookup freq (aset freq fromRest (aset (freq + 1)
      (((alookup (freq + 1) s.freq_to_list).getD []) ++ [(node.1, nv)])
      s.freq_to_list)) = some fromRest := alookup_aset_self _ _ _
  have L1 : alookup (freq + 1) (aset freq fromRest (aset (freq + 1)
      (((alookup (freq + 1) s.freq_to_list).getD []) ++ [(node.1, nv)])
      s.freq_to_list)) =
      some (((alookup (freq + 1) s.freq_to_list).getD []) ++ [(node.1, nv)]) := by
    rw [alookup_aset_ne _ _ (by omega : freq + 1 ≠ freq)]
    exact alookup_aset_self _ _ _
  have Lne : ∀ f : Nat, f ≠ freq → f ≠ freq + 1 →
      alookup f (aset freq fromRest (aset (freq + 1)
        (((alookup (freq + 1) s.freq_to_list).getD []) ++ [(node.1, nv)])
        s.freq_to_list)) = alookup f s.freq_to_list := by
    intro f h1 h2
    rw [alookup_aset_ne _ _ h1, alookup_aset_ne _ _ h2]
  -- membership elimination for FB2
  have hFB2_elim : ∀ fb ∈ aset freq fromRest (aset (freq + 1)
      (((alookup (freq + 1) s.freq_to_list).getD []) ++ [(node.1, nv)])
      s.freq_to_list),
      (fb.1 = freq ∧ fb.2 = fromRest) ∨
      (fb.1 = freq + 1 ∧
        fb.2 = ((alookup (freq + 1) s.freq_to_list).getD []) ++ [(node.1, nv)]) ∨
      (fb ∈ s.freq_to_list ∧ fb.1 ≠ freq ∧ fb.1 ≠ freq + 1) := by
    intro fb hfb2
    rcases mem_aset_elim_nodup nd_fb1 hfb2 with h | ⟨h1, h2⟩
    · exact Or.inl h
    · rcases mem_aset_elim_nodup nd_fb h1 with h | ⟨h3, h4⟩
      · exact Or.inr (Or.inl h)
      · exact Or.inr (Or.inr ⟨h3, h2, h4⟩)
  -- consistency of old entries against the new key map
  have hold_ok : ∀ fb ∈ s.freq_to_list, fb.1 ≠ freq →
      ∀ nd ∈ fb.2, alookup nd.1 (aset key (freq + 1) s.key_to_freq) =
        some fb.1 := by
    intro fb hmem hne nd hnd
    have hood := (fb_ok fb hmem).2 nd hnd
    have hnk : nd.1 ≠ key := by
      intro he
      rw [he, hkf] at hood
      injection hood with hood
      exact hne hood.symm
    rw [alookup_aset_ne _ _ hnk]
    exact hood
  have hfr_ok : ∀ nd ∈ fromRest,
      alookup nd.1 (aset key (freq + 1) s.key_to_freq) = some freq := by
    intro nd hnd
    have hood := (fb_ok _ hfbmem).2 nd (hn4 nd hnd)
    have hnk : nd.1 ≠ key := by
      intro he
      exact hkey_not_fr (he ▸ List.mem_map.mpr ⟨nd, hnd, rfl⟩)
    rw [alookup_aset_ne _ _ hnk]
    exact hood
  -- the new key map
  have nd_kf' : ((aset key (freq + 1) s.key_to_freq).map Prod.fst).Nodup := by
    rwa [keys_aset_of_mem _ hkey_mem]
  have len_kf' : (aset key (freq + 1) s.key_to_freq).length = s.cur_cnt := by
    rw [length_aset_of_mem _ hkey_mem]
    exact len_kf
  have hfreq1 : 1 ≤ freq := fb_ge1 _ hfbmem
  refine ⟨nd_kf', nd_kn, ?_, ?_, len_kf', len_kn, hcap, ?_, ?_, ?_, ?_, ?_, ?_⟩
  · -- keys of the new FB are duplicate-free
    dsimp only
    by_cases hemp : fromRest.isEmpty
    · rw [if_pos hemp, keys_aerase]
      exact nd_fb2.erase _
    · rw [if_neg hemp]
      exact nd_fb2
  · -- every bucket has duplicate-free keys
    dsimp only
    intro fb hmem
    have hmem2 : fb ∈ aset freq fromRest (aset (freq + 1)
        (((alookup (freq + 1) s.freq_to_list).getD []) ++ [(node.1, nv)])
        s.freq_to_list) := by
      by_cases hemp : fromRest.isEmpty
      · rw [if_pos hemp] at hmem
        exact mem_aerase hmem
      · rwa [if_neg hemp] at hmem
    rcases hFB2_elim fb hmem2 with ⟨-, h2⟩ | ⟨-, h2⟩ | ⟨h1, -, -⟩
    · rw [h2]
      exact hfr_nd
    · rw [h2]
      exact hB_nd
    · exact nd_bk _ h1
  · -- KN members resolve in the new KF
    dsimp only
    intro k hk
    by_cases hke : k = key
    · rw [hke, alookup_aset_self]
      rfl
    · rw [alookup_aset_ne _ _ hke]
      exact kn_some k hk
  · -- KF keys are in KN
    dsimp only
    intro kv hkv
    rcases mem_aset_elim_nodup nd_kf hkv with ⟨h1, -⟩ | ⟨h1, -⟩
    · rw [h1]
      exact hkn
    · exact kf_kn kv h1
  · -- the locator clause: every key occurs in the bucket of its frequency
    dsimp only
    intro kv hkv
    rcases mem_aset_elim_nodup nd_kf hkv with ⟨h1, h2⟩ | ⟨h1, h2⟩
    · -- the promoted key sits at the tail of bucket freq+1
      rw [h1, h2]
      have : alookup (freq + 1)
          (if fromRest.isEmpty
            then aerase freq (aset freq fromRest (aset (freq + 1)
              (((alookup (freq + 1) s.freq_to_list).getD []) ++ [(node.1, nv)])
              s.freq_to_list))
            else aset freq fromRest (aset (freq + 1)
              (((alookup (freq + 1) s.freq_to_list).getD []) ++ [(node.1, nv)])
              s.freq_to_list)) =
          some (((alookup (freq + 1) s.freq_to_list).getD []) ++
            [(node.1, nv)]) := by
        by_cases hemp : fromRest.isEmpty
        · rw [if_pos hemp, alookup_aerase_ne _ (by omega : freq + 1 ≠ freq)]
          exact L1
        · rw [if_neg hemp]
          exact L1
      rw [this]
      simp only [Option.getD_some]
      rw [hB_keys]
      exact List.mem_append.mpr (Or.inr (List.mem_singleton.mpr rfl))
    · -- keys other than the promoted one keep their bucket
      have hov := kf_loc kv h1
      have hof : alookup kv.1 s.key_to_freq = some kv.2 :=
        alookup_of_mem_nodup nd_kf h1
      by_cases hf : kv.2 = freq
      · -- the old bucket: the key stays in fromRest, which is non-empty
        have hkvfl : kv.1 ∈ fromList.map Prod.fst := by
          have := hov
          rw [hf, hfb] at this
          simpa using this
        have hkvfr : kv.1 ∈ fromRest.map Prod.fst := by
          rw [hn6]
          exact (List.mem_erase_of_ne h2).mpr hkvfl
        have hemp : fromRest.isEmpty = false := by
          cases hfr : fromRest with
          | nil => rw [hfr] at hkvfr; simp at hkvfr
          | cons x xs => rfl
        rw [hf, if_neg (by simp [hemp]), L2]
        simpa using hkvfr
      · by_cases hf1 : kv.2 = freq + 1
        · have hkvtl : kv.1 ∈
              ((alookup (freq + 1) s.freq_to_list).getD []).map Prod.fst := by
            have := hov
            rwa [hf1] at this
          have : alookup kv.2
              (if fromRest.isEmpty
                then aerase freq (aset freq fromRest (aset (freq + 1)
                  (((alookup (freq + 1) s.freq_to_list).getD []) ++
                    [(node.1, nv)]) s.freq_to_list))
                else aset freq fromRest (aset (freq + 1)
                  (((alookup (freq + 1) s.freq_to_list).getD []) ++
                    [(node.1, nv)]) s.freq_to_list)) =
              some (((alookup (freq + 1) s.freq_to_list).getD []) ++
                [(node.1, nv)]) := by
            rw [hf1]
            by_cases hemp : fromRest.isEmpty
            · rw [if_pos hemp, alookup_aerase_ne _ (by omega : freq + 1 ≠ freq)]
              exact L1
            · rw [if_neg hemp]
              exact L1
          rw [this]
          simp only [Option.getD_some]
          rw [hB_keys]
          exact List.mem_append.mpr (Or.inl hkvtl)
        · have : alookup kv.2
              (if fromRest.isEmpty
                then aerase freq (aset freq fromRest (aset (freq + 1)
                  (((alookup (freq + 1) s.freq_to_list).getD []) ++
                    [(node.1, nv)]) s.freq_to_list))
                else aset freq fromRest (aset (freq + 1)
                  (((alookup (freq + 1) s.freq_to_list).getD []) ++
                    [(node.1, nv)]) s.freq_to_list)) =
              alookup kv.2 s.freq_to_list := by
            by_cases hemp : fromRest.isEmpty
            · rw [if_pos hemp, alookup_aerase_ne _ hf]
              exact Lne kv.2 hf hf1
            · rw [if_neg hemp]
              exact Lne kv.2 hf hf1
          rw [this]
          exact hov
  · -- buckets present are non-empty and consistent with the new KF
    dsimp only
    intro fb hmem
    by_cases hemp : fromRest.isEmpty
    · rw [if_pos hemp] at hmem
      have hne := key_ne_of_mem_aerase nd_fb2 hmem
      rcases hFB2_elim fb (mem_aerase hmem) with ⟨h1, -⟩ | ⟨h1, h2⟩ | ⟨h1, h3, -⟩
      · exact absurd h1 hne
      · constructor
        · rw [h2]
          simp
        · rw [h1, h2]
          exact hB_ok
      · refine ⟨(fb_ok fb h1).1, hold_ok fb h1 h3⟩
    · rw [if_neg hemp] at hmem
      rcases hFB2_elim fb hmem with ⟨h1, h2⟩ | ⟨h1, h2⟩ | ⟨h1, h3, -⟩
      · constructor
        · rw [h2]
          cases hfr : fromRest with
          | nil => rw [hfr] at hemp; simp at hemp
          | cons x xs => simp
        · rw [h1, h2]
          exact hfr_ok
      · constructor
        · rw [h2]
          simp
        · rw [h1, h2]
          exact hB_ok
      · refine ⟨(fb_ok fb h1).1, hold_ok fb h1 h3⟩
  · -- min_freq is present and minimal
    dsimp only
    intro hcnt
    have hold := hmin hcnt
    have hminle : s.min_freq ≤ freq := hold.2 _ hfbmem
    by_cases hcond : fromRest.isEmpty ∧ s.min_freq = freq
    · rw [if_pos hcond, if_pos hcond.1]
      constructor
      · rw [alookup_aerase_ne _ (by omega : freq + 1 ≠ freq), L1]
        rfl
      · intro fb hmem
        have hne := key_ne_of_mem_aerase nd_fb2 hmem
        rcases hFB2_elim fb (mem_aerase hmem) with ⟨h1, -⟩ | ⟨h1, -⟩ |
          ⟨h1, h3, -⟩
        · exact absurd h1 hne
        · omega
        · have := hold.2 fb h1
          rw [hcond.2] at this
          omega
    · rw [if_neg hcond]
      by_cases hemp : fromRest.isEmpty
      · -- the erased bucket was not the minimum
        have hmne : s.min_freq ≠ freq := fun he => hcond ⟨hemp, he⟩
        rw [if_pos hemp]
        constructor
        · rw [alookup_aerase_ne _ hmne]
          by_cases hm1 : s.min_freq = freq + 1
          · rw [hm1, L1]
            rfl
          · rw [Lne _ hmne hm1]
            exact hold.1
        · intro fb hmem
          have hne := key_ne_of_mem_aerase nd_fb2 hmem
          rcases hFB2_elim fb (mem_aerase hmem) with ⟨h1, -⟩ | ⟨h1, -⟩ |
            ⟨h1, -, -⟩
          · exact absurd h1 hne
          · omega
          · exact hold.2 fb h1
      · rw [if_neg hemp]
        constructor
        · by_cases hmf : s.min_freq = freq
          · rw [hmf, L2]
            rfl
          · by_cases hm1 : s.min_freq = freq + 1
            · rw [hm1, L1]
              rfl
            · rw [Lne _ hmf hm1]
              exact hold.1
        · intro fb hmem
          rcases hFB2_elim fb hmem with ⟨h1, -⟩ | ⟨h1, -⟩ | ⟨h1, -, -⟩
          · omega
          · omega
          · exact hold.2 fb h1
  · -- all bucket frequencies are at least 1
    dsimp only
    intro fb hmem
    have hmem2 : fb ∈ aset freq fromRest (aset (freq + 1)
        (((alookup (freq + 1) s.freq_to_list).getD []) ++ [(node.1, nv)])
        s.freq_to_list) := by
      by_cases hemp : fromRest.isEmpty
      · rw [if_pos hemp] at hmem
        exact mem_aerase hmem
      · rwa [if_neg hemp] at hmem
    rcases hFB2_elim fb hmem2 with ⟨h1, -⟩ | ⟨h1, -⟩ | ⟨h1, -, -⟩
    · omega
    · omega
    · exact fb_ge1 fb h1

theorem length_aset_of_not_mem [DecidableEq α] {a : α} (b : β)
    {l : List (α × β)} (h : a ∉ l.map Prod.fst) :
    (aset a b l).length = l.length + 1 := by
  have h1 := congrArg List.length (keys_aset_of_not_mem b h)
  simpa using h1

/-- `get` preserves the invariant: every miss path leaves the state
unchanged and the hit path is the promotion. -/
theorem lfu_get_preserves (s : LFUState K V) (key : K) (hinv : LFUInv s) :
    LFUInv (lfu_get s key).1 := by
  cases hkf : alookup key s.key_to_freq with
  | none =>
    simp only [lfu_get, hkf]
    exact hinv
  | some freq =>
    cases hfb : alookup freq s.freq_to_list with
    | none =>
      simp only [lfu_get, hkf, hfb]
      exact hinv
    | some fromList =>
      by_cases hkn : key ∈ s.key_to_iter
      · cases hext : bextract key fromList with
        | none =>
          simp only [lfu_get, hkf, hfb, hext, if_pos hkn]
          exact hinv
        | some r =>
          obtain ⟨node, fromRest⟩ := r
          have h := lfu_promote_inv s key freq fromList fromRest node node.2
            hinv hkf hfb hkn hext
          simp only [lfu_get, hkf, hfb, hext, if_pos hkn]
          exact h
      · simp only [lfu_get, hkf, hfb, if_neg hkn]
        exact hinv

/-- Appending a fresh key at frequency 1 (the final stage of the
new-key branch of `put_impl`) preserves the invariant, provided the
cache is strictly below capacity and the key is absent. -/
theorem lfu_insert_inv (t : LFUState K V) (key : K) (v : V)
    (nd_kf : (t.key_to_freq.map Prod.fst).Nodup)
    (nd_kn : t.key_to_iter.Nodup)
    (nd_fb : (t.freq_to_list.map Prod.fst).Nodup)
    (nd_bk : ∀ fb ∈ t.freq_to_list, (fb.2.map Prod.fst).Nodup)
    (len_kf : t.key_to_freq.length = t.cur_cnt)
    (len_kn : t.key_to_iter.length = t.cur_cnt)
    (hlt : t.cur_cnt < t.cap)
    (kn_some : ∀ k ∈ t.key_to_iter, (alookup k t.key_to_freq).isSome = true)
    (kf_kn : ∀ kv ∈ t.key_to_freq, kv.1 ∈ t.key_to_iter)
    (kf_loc : ∀ kv ∈ t.key_to_freq,
      kv.1 ∈ ((alookup kv.2 t.freq_to_list).getD []).map Prod.fst)
    (fb_ok : ∀ fb ∈ t.freq_to_list, 0 < fb.2.length ∧
      ∀ nd ∈ fb.2, alookup nd.1 t.key_to_freq = some fb.1)
    (fb_ge1 : ∀ fb ∈ t.freq_to_list, 1 ≤ fb.1)
    (hkey_kf : alookup key t.key_to_freq = none) :
    LFUInv
      { t with
        freq_to_list := aset 1
          (((alookup 1 t.freq_to_list).getD []) ++ [(key, v)]) t.freq_to_list,
        key_to_iter := if key ∈ t.key_to_iter then t.key_to_iter
          else t.key_to_iter ++ [key],
        key_to_freq := aset key 1 t.key_to_freq,
        min_freq := 1,
        cur_cnt := t.cur_cnt + 1 } := by
  have hkey_kn : key ∉ t.key_to_iter := by
    intro h
    have := kn_some key h
    rw [hkey_kf] at this
    simp at this
  have hkey_keys : key ∉ t.key_to_freq.map Prod.fst := by
    intro h
    have := alookup_isSome_of_mem_keys h
    rw [hkey_kf] at this
    simp at this
  have hl1_ok : ∀ nd ∈ (alookup 1 t.freq_to_list).getD [],
      alookup nd.1 t.key_to_freq = some 1 := by
    intro nd hnd
    cases ht : alookup 1 t.freq_to_list with
    | none => rw [ht] at hnd; simp at hnd
    | some b =>
      rw [ht] at hnd
      exact (fb_ok _ (alookup_mem ht)).2 nd hnd
  have hl1_nd : (((alookup 1 t.freq_to_list).getD []).map Prod.fst).Nodup := by
    cases ht : alookup 1 t.freq_to_list with
    | none => simp
    | some b => exact nd_bk _ (alookup_mem ht)
  have hkey_not_l1 :
      key ∉ ((alookup 1 t.freq_to_list).getD []).map Prod.fst := by
    intro hmem
    obtain ⟨nd, hnd, hnd1⟩ := List.mem_map.mp hmem
    have := hl1_ok nd hnd
    rw [hnd1, hkey_kf] at this
    simp at this
  have hB_keys : ((((alookup 1 t.freq_to_list).getD []) ++
      [(key, v)]).map Prod.fst) =
      ((alookup 1 t.freq_to_list).getD []).map Prod.fst ++ [key] := by
    rw [List.map_append]
    rfl
  have hB_nd : ((((alookup 1 t.freq_to_list).getD []) ++
      [(key, v)]).map Prod.fst).Nodup := by
    rw [hB_keys, List.nodup_append]
    exact ⟨hl1_nd, List.nodup_singleton _,
      fun x hx hx' => hkey_not_l1 ((List.mem_singleton.mp hx') ▸ hx)⟩
  have L1 : alookup 1 (aset 1
      (((alookup 1 t.freq_to_list).getD []) ++ [(key, v)]) t.freq_to_list) =
      some (((alookup 1 t.freq_to_list).getD []) ++ [(key, v)]) :=
    alookup_aset_self _ _ _
  have hFB_elim : ∀ fb ∈ aset 1
      (((alookup 1 t.freq_to_list).getD []) ++ [(key, v)]) t.freq_to_list,
      (fb.1 = 1 ∧ fb.2 = ((alookup 1 t.freq_to_list).getD []) ++ [(key, v)]) ∨
      (fb ∈ t.freq_to_list ∧ fb.1 ≠ 1) := fun fb h =>
    mem_aset_elim_nodup nd_fb h
  rw [if_neg hkey_kn]
  refine ⟨?_, ?_, ?_, ?_, ?_, ?_, ?_, ?_, ?_, ?_, ?_, ?_, ?_⟩
  · -- KF keys duplicate-free
    dsimp only
    rw [keys_aset_of_not_mem _ hkey_keys, List.nodup_append]
    exact ⟨nd_kf, List.nodup_singleton _,
      fun x hx hx' => hkey_keys ((List.mem_singleton.mp hx') ▸ hx)⟩
  · -- KN duplicate-free
    dsimp only
    rw [List.nodup_append]
    exact ⟨nd_kn, List.nodup_singleton _,
      fun x hx hx' => hkey_kn ((List.mem_singleton.mp hx') ▸ hx)⟩
  · -- FB keys duplicate-free
    dsimp only
    by_cases hm : (1 : Nat) ∈ t.freq_to_list.map Prod.fst
    · rwa [keys_aset_of_mem _ hm]
    · rw [keys_aset_of_not_mem _ hm, List.nodup_append]
      exact ⟨nd_fb, List.nodup_singleton _,
        fun x hx hx' => hm ((List.mem_singleton.mp hx') ▸ hx)⟩
  · -- buckets duplicate-free
    dsimp only
    intro fb hmem
    rcases hFB_elim fb hmem with ⟨-, h2⟩ | ⟨h1, -⟩
    · rw [h2]
      exact hB_nd
    · exact nd_bk _ h1
  · -- |KF| = count
    dsimp only
    rw [length_aset_of_not_mem _ hkey_keys, len_kf]
  · -- |KN| = count
    dsimp only
    rw [List.length_append, len_kn]
    rfl
  · -- count ≤ capacity
    dsimp only
    omega
  · -- KN members resolve in KF
    dsimp only
    intro k hk
    by_cases hke : k = key
    · rw [hke, alookup_aset_self]
      rfl
    · rw [alookup_aset_ne _ _ hke]
      rcases List.mem_append.mp hk with h | h
      · exact kn_some k h
      · exact absurd (List.mem_singleton.mp h) hke
  · -- KF keys are in KN
    dsimp only
    intro kv hkv
    rcases mem_aset_elim_nodup nd_kf hkv with ⟨h1, -⟩ | ⟨h1, -⟩
    · rw [h1]
      exact List.mem_append.mpr (Or.inr (List.mem_singleton.mpr rfl))
    · exact List.mem_append.mpr (Or.inl (kf_kn kv h1))
  · -- locator clause
    dsimp only
    intro kv hkv
    rcases mem_aset_elim_nodup nd_kf hkv with ⟨h1, h2⟩ | ⟨h1, h2⟩
    · rw [h1, h2, L1]
      simp only [Option.getD_some]
      rw [hB_keys]
      exact List.mem_append.mpr (Or.inr (List.mem_singleton.mpr rfl))
    · by_cases hf : kv.2 = 1
      · rw [hf, L1]
        simp only [Option.getD_some]
        rw [hB_keys]
        refine List.mem_append.mpr (Or.inl ?_)
        have := kf_loc kv h1
        rwa [hf] at this
      · rw [alookup_aset_ne _ _ hf]
        exact kf_loc kv h1
  · -- buckets non-empty and consistent
    dsimp only
    intro fb hmem
    rcases hFB_elim fb hmem with ⟨h1, h2⟩ | ⟨h1, h3⟩
    · constructor
      · rw [h2]
        simp
      · rw [h1, h2]
        intro nd hnd
        rcases List.mem_append.mp hnd with h | h
        · have hne : nd.1 ≠ key := by
            intro he
            have := hl1_ok nd h
            rw [he, hkey_kf] at this
            simp at this
          rw [alookup_aset_ne _ _ hne]
          exact hl1_ok nd h
        · rw [List.mem_singleton.mp h]
          exact alookup_aset_self _ _ _
    · refine ⟨(fb_ok fb h1).1, ?_⟩
      intro nd hnd
      have hood := (fb_ok fb h1).2 nd hnd
      have hne : nd.1 ≠ key := by
        intro he
        rw [he, hkey_kf] at hood
        simp at hood
      rw [alookup_aset_ne _ _ hne]
      exact hood
  · -- min_freq = 1 is present and minimal
    dsimp only
    intro _
    refine ⟨by rw [L1]; rfl, ?_⟩
    intro fb hmem
    rcases hFB_elim fb hmem with ⟨h1, -⟩ | ⟨h1, -⟩
    · omega
    · exact fb_ge1 fb h1
  · -- all bucket frequencies at least 1
    dsimp only
    intro fb hmem
    rcases hFB_elim fb hmem with ⟨h1, -⟩ | ⟨h1, -⟩
    · omega
    · exact fb_ge1 fb h1

/-- `put_impl` preserves the invariant across all branches: capacity
zero, null value, existing-key promotion (with the defensive miss
paths), and the new-key branch with or without eviction. -/
theorem lfu_put_impl_preserves (s : LFUState K V) (key : K) (val : Option V)
    (hinv : LFUInv s) : LFUInv (lfu_put_impl s key val) := by
  by_cases hcap0 : s.cap = 0
  · simp only [lfu_put_impl, if_pos hcap0]
    exact hinv
  cases val with
  | none =>
    simp only [lfu_put_impl, if_neg hcap0]
    exact hinv
  | some v =>
    cases hkf : alookup key s.key_to_freq with
    | some freq =>
      cases hfb : alookup freq s.freq_to_list with
      | none =>
        simp only [lfu_put_impl, if_neg hcap0, hkf, hfb]
        exact hinv
      | some fromList =>
        by_cases hkn : key ∈ s.key_to_iter
        · cases hext : bextract key fromList with
          | none =>
            simp only [lfu_put_impl, if_neg hcap0, hkf, hfb, hext, if_pos hkn]
            exact hinv
          | some r =>
            obtain ⟨node, fromRest⟩ := r
            have h := lfu_promote_inv s key freq fromList fromRest node v
              hinv hkf hfb hkn hext
            simp only [lfu_put_impl, if_neg hcap0, hkf, hfb, hext, if_pos hkn]
            exact h
        · simp only [lfu_put_impl, if_neg hcap0, hkf, hfb, if_neg hkn]
          exact hinv
    | none =>
      obtain ⟨nd_kf, nd_kn, nd_fb, nd_bk, len_kf, len_kn, hcap, kn_some,
        kf_kn, kf_loc, fb_ok, hmin, fb_ge1⟩ := hinv
      by_cases hfull : s.cap ≤ s.cur_cnt
      · have hcnt0 : 0 < s.cur_cnt := by omega
        have hm := hmin hcnt0
        cases hmb : alookup s.min_freq s.freq_to_list with
        | none =>
          rw [hmb] at hm
          simp at hm
        | some lst =>
          cases lst with
          | nil =>
            have h0 := (fb_ok _ (alookup_mem hmb)).1
            simp at h0
          | cons victim rest =>
            have hvmem : (s.min_freq, victim :: rest) ∈ s.freq_to_list :=
              alookup_mem hmb
            have hv_kf : alookup victim.1 s.key_to_freq = some s.min_freq :=
              (fb_ok _ hvmem).2 victim (List.mem_cons_self _ _)
            have hv_keys : victim.1 ∈ s.key_to_freq.map Prod.fst :=
              mem_keys_of_alookup hv_kf
            have hv_kn : victim.1 ∈ s.key_to_iter := kf_kn _ (alookup_mem hv_kf)
            have hbk_nd : ((victim :: rest).map Prod.fst).Nodup := nd_bk _ hvmem
            have hv_not_rest : victim.1 ∉ rest.map Prod.fst := by
              have h1 := hbk_nd
              simp only [List.map_cons, List.nodup_cons] at h1
              exact h1.1
            have hrest_nd : (rest.map Prod.fst).Nodup := by
              have h1 := hbk_nd
              simp only [List.map_cons, List.nodup_cons] at h1
              exact h1.2
            have hkey_ne_v : key ≠ victim.1 := by
              intro he
              rw [he, hv_kf] at hkf
              simp at hkf
            -- shared evicted-map facts
            have nd_kf_t : ((aerase victim.1 s.key_to_freq).map
                Prod.fst).Nodup := by
              rw [keys_aerase]
              exact nd_kf.erase _
            have nd_kn_t : (s.key_to_iter.erase victim.1).Nodup :=
              nd_kn.erase _
            have len_kf_t : (aerase victim.1 s.key_to_freq).length =
                s.cur_cnt - 1 := by
              have := length_aerase_of_mem (l := s.key_to_freq) hv_keys
              omega
            have len_kn_t : (s.key_to_iter.erase victim.1).length =
                s.cur_cnt - 1 := by
              rw [List.length_erase_of_mem hv_kn, len_kn]
            have hlt_t : s.cur_cnt - 1 < s.cap := by omega
            have kn_some_t : ∀ k ∈ s.key_to_iter.erase victim.1,
                (alookup k (aerase victim.1 s.key_to_freq)).isSome = true := by
              intro k hk
              obtain ⟨hne, hmem⟩ := (nd_kn.mem_erase_iff).mp hk
              rw [alookup_aerase_ne _ hne]
              exact kn_some k hmem
            have kf_kn_t : ∀ kv ∈ aerase victim.1 s.key_to_freq,
                kv.1 ∈ s.key_to_iter.erase victim.1 := by
              intro kv hkv
              have hne := key_ne_of_mem_aerase nd_kf hkv
              exact (nd_kn.mem_erase_iff).mpr ⟨hne, kf_kn kv (mem_aerase hkv)⟩
            have hkey_kf_t : alookup key (aerase victim.1 s.key_to_freq) =
                none := by
              rw [alookup_aerase_ne _ hkey_ne_v]
              exact hkf
            cases rest with
            | nil =>
              -- the minimum bucket empties: it is erased from FB
              simp only [lfu_put_impl, if_neg hcap0, hkf, if_pos hfull, hmb,
                List.isEmpty_nil, if_true]
              refine lfu_insert_inv
                { s with
                  key_to_iter := s.key_to_iter.erase victim.1,
                  key_to_freq := aerase victim.1 s.key_to_freq,
                  cur_cnt := s.cur_cnt - 1,
                  freq_to_list := aerase s.min_freq s.freq_to_list }
                key v nd_kf_t nd_kn_t ?_ ?_ len_kf_t
                len_kn_t hlt_t kn_some_t kf_kn_t ?_ ?_ ?_ hkey_kf_t
              · rw [keys_aerase]
                exact nd_fb.erase _
              · intro fb hmem
                exact nd_bk _ (mem_aerase hmem)
              · intro kv hkv
                have hne := key_ne_of_mem_aerase nd_kf hkv
                have hold := kf_loc kv (mem_aerase hkv)
                by_cases hfm : kv.2 = s.min_freq
                · rw [hfm, hmb] at hold
                  simp only [Option.getD_some, List.map_cons, List.map_nil,
                    List.mem_singleton] at hold
                  exact absurd hold hne
                · rw [alookup_aerase_ne _ hfm]
                  exact hold
              · intro fb hmem
                have hne := key_ne_of_mem_aerase nd_fb hmem
                have hmem2 := mem_aerase hmem
                refine ⟨(fb_ok fb hmem2).1, ?_⟩
                intro nd hnd
                have hood := (fb_ok fb hmem2).2 nd hnd
                have hnev : nd.1 ≠ victim.1 := by
                  intro he
                  rw [he, hv_kf] at hood
                  injection hood with hood
                  exact hne hood.symm
                rw [alookup_aerase_ne _ hnev]
                exact hood
              · intro fb hmem
                exact fb_ge1 fb (mem_aerase hmem)
            | cons r2 rs =>
              -- the minimum bucket keeps its tail
              simp only [lfu_put_impl, if_neg hcap0, hkf, if_pos hfull, hmb,
                List.isEmpty_cons, if_false]
              have hmin_keys : s.min_freq ∈ s.freq_to_list.map Prod.fst :=
                List.mem_map.mpr ⟨_, hvmem, rfl⟩
              refine lfu_insert_inv
                { s with
                  key_to_iter := s.key_to_iter.erase victim.1,
                  key_to_freq := aerase victim.1 s.key_to_freq,
                  cur_cnt := s.cur_cnt - 1,
                  freq_to_list := aset s.min_freq (r2 :: rs) s.freq_to_list }
                key v nd_kf_t nd_kn_t ?_ ?_ len_kf_t
                len_kn_t hlt_t kn_some_t kf_kn_t ?_ ?_ ?_ hkey_kf_t
              · rwa [keys_aset_of_mem _ hmin_keys]
              · intro fb hmem
                rcases mem_aset_elim_nodup nd_fb hmem with ⟨-, h2⟩ | ⟨h1, -⟩
                · rw [h2]
                  exact hrest_nd
                · exact nd_bk _ h1
              · intro kv hkv
                have hne := key_ne_of_mem_aerase nd_kf hkv
                have hold := kf_loc kv (mem_aerase hkv)
                by_cases hfm : kv.2 = s.min_freq
                · rw [hfm, hmb] at hold
                  simp only [Option.getD_some, List.map_cons,
                    List.mem_cons] at hold
                  rw [hfm, alookup_aset_self]
                  simp only [Option.getD_some, List.map_cons, List.mem_cons]
                  rcases hold with h | h
                  · exact absurd h hne
                  · exact h
                · rw [alookup_aset_ne _ _ hfm]
                  exact hold
              · intro fb hmem
                rcases mem_aset_elim_nodup nd_fb hmem with ⟨h1, h2⟩ | ⟨h1, h3⟩
                · constructor
                  · rw [h2]
                    simp
                  · rw [h1, h2]
                    intro nd hnd
                    have hood := (fb_ok _ hvmem).2 nd
                      (List.mem_cons_of_mem _ hnd)
                    have hnev : nd.1 ≠ victim.1 := by
                      intro he
                      refine hv_not_rest ?_
                      rw [← he]
                      exact List.mem_map.mpr ⟨nd, hnd, rfl⟩
                    rw [alookup_aerase_ne _ hnev]
                    exact hood
                · refine ⟨(fb_ok fb h1).1, ?_⟩
                  intro nd hnd
                  have hood := (fb_ok fb h1).2 nd hnd
                  have hnev : nd.1 ≠ victim.1 := by
                    intro he
                    rw [he, hv_kf] at hood
                    injection hood with hood
                    exact h3 hood.symm
                  rw [alookup_aerase_ne _ hnev]
                  exact hood
              · intro fb hmem
                rcases mem_aset_elim_nodup nd_fb hmem with ⟨h1, -⟩ | ⟨h1, -⟩
                · rw [h1]
                  exact fb_ge1 _ hvmem
                · exact fb_ge1 fb h1
      · -- below capacity: no eviction
        simp only [lfu_put_impl, if_neg hcap0, hkf, if_neg hfull]
        exact lfu_insert_inv s key v nd_kf nd_kn nd_fb nd_bk len_kf len_kn
          (by omega) kn_some kf_kn kf_loc fb_ok fb_ge1 hkf

/-! ### Theorems: LFU claims (C3, C5) -/

/-- C3: a `put` of a new key when `Count = Capacity > 0` evicts exactly
the head node of the minimum-frequency bucket: that node's key leaves
`KF` and `KN` and `Count` is decremented before the insertion (so the
net count is unchanged), the new key enters at frequency 1 at the tail
of bucket 1, and `MinFreq` becomes 1. -/
theorem lfu_put_evicts_min_head (s : LFUState K V) (key : K) (v : V)
    (hinv : LFUInv s) (hfull : s.cur_cnt = s.cap) (hpos : 0 < s.cap)
    (hnew : alookup key s.key_to_freq = none) :
    ∃ vk vv rest,
      alookup s.min_freq s.freq_to_list = some ((vk, vv) :: rest) ∧
      vk ≠ key ∧
      alookup vk (lfu_put s key v).key_to_freq = none ∧
      vk ∉ (lfu_put s key v).key_to_iter ∧
      alookup key (lfu_put s key v).key_to_freq = some 1 ∧
      key ∈ (lfu_put s key v).key_to_iter ∧
      (lfu_put s key v).min_freq = 1 ∧
      (lfu_put s key v).cur_cnt = s.cur_cnt ∧
      ∃ lst, alookup 1 (lfu_put s key v).freq_to_list = some lst ∧
        lst.getLast? = some (key, v) := by
  obtain ⟨nd_kf, nd_kn, nd_fb, nd_bk, len_kf, len_kn, hcap, kn_some, kf_kn,
    kf_loc, fb_ok, hmin, fb_ge1⟩ := hinv
  have hcap0 : ¬ s.cap = 0 := by omega
  have hcnt0 : 0 < s.cur_cnt := by omega
  have hfull' : s.cap ≤ s.cur_cnt := by omega
  have hm := hmin hcnt0
  cases hmb : alookup s.min_freq s.freq_to_list with
  | none =>
    rw [hmb] at hm
    simp at hm
  | some lst =>
    cases lst with
    | nil =>
      have h0 := (fb_ok _ (alookup_mem hmb)).1
      simp at h0
    | cons victim rest =>
      obtain ⟨vk, vv⟩ := victim
      have hv_kf : alookup vk s.key_to_freq = some s.min_freq :=
        (fb_ok _ (alookup_mem hmb)).2 _ (List.mem_cons_self _ _)
      have hkey_ne : vk ≠ key := by
        intro he
        rw [he, hnew] at hv_kf
        simp at hv_kf
      have hkey_kn : key ∉ s.key_to_iter := by
        intro h
        have := kn_some key h
        rw [hnew] at this
        simp at this
      have hkey_not_erase : key ∉ s.key_to_iter.erase vk := fun h =>
        hkey_kn (List.mem_of_mem_erase h)
      refine ⟨vk, vv, rest, rfl, hkey_ne, ?_⟩
      cases rest with
      | nil =>
        simp only [lfu_put, lfu_put_impl, if_neg hcap0, hnew, if_pos hfull',
          hmb, List.isEmpty_nil, if_true, if_neg hkey_not_erase]
        refine ⟨?_, ?_, ?_, ?_, trivial, by omega, ?_⟩
        · rw [alookup_aset_ne _ _ hkey_ne, alookup_aerase_self nd_kf]
        · intro h
          rcases List.mem_append.mp h with h | h
          · exact nd_kn.not_mem_erase h
          · exact hkey_ne (List.mem_singleton.mp h)
        · exact alookup_aset_self _ _ _
        · exact List.mem_append.mpr (Or.inr (List.mem_singleton.mpr rfl))
        · exact ⟨_, alookup_aset_self _ _ _, List.getLast?_concat _⟩
      | cons r2 rs =>
        simp only [lfu_put, lfu_put_impl, if_neg hcap0, hnew, if_pos hfull',
          hmb, List.isEmpty_cons, Bool.false_eq_true, if_false,
          if_neg hkey_not_erase]
        refine ⟨?_, ?_, ?_, ?_, trivial, by omega, ?_⟩
        · rw [alookup_aset_ne _ _ hkey_ne, alookup_aerase_self nd_kf]
        · intro h
          rcases List.mem_append.mp h with h | h
          · exact nd_kn.not_mem_erase h
          · exact hkey_ne (List.mem_singleton.mp h)
        · exact alookup_aset_self _ _ _
        · exact List.mem_append.mpr (Or.inr (List.mem_singleton.mpr rfl))
        · exact ⟨_, alookup_aset_self _ _ _, List.getLast?_concat _⟩

/-- Witness for C3 at the spec tie-break scenario `LFU(2)`:
`put(1,1); put(2,2)` fills the cache, then `put(3,3)` evicts key 1 (the
oldest at the minimum frequency); afterwards `get(1)` misses while
`get(2) = 2` and `get(3) = 3`. -/
theorem lfu_put_evicts_min_head_witness :
    (∃ vk vv rest,
      alookup (lfu_put (lfu_put (lfu_init Nat Nat 2) 1 1) 2 2).min_freq
        (lfu_put (lfu_put (lfu_init Nat Nat 2) 1 1) 2 2).freq_to_list =
        some ((vk, vv) :: rest) ∧
      vk ≠ 3 ∧
      alookup vk (lfu_put (lfu_put (lfu_put (lfu_init Nat Nat 2) 1 1) 2 2)
        3 3).key_to_freq = none ∧
      vk ∉ (lfu_put (lfu_put (lfu_put (lfu_init Nat Nat 2) 1 1) 2 2)
        3 3).key_to_iter ∧
      alookup 3 (lfu_put (lfu_put (lfu_put (lfu_init Nat Nat 2) 1 1) 2 2)
        3 3).key_to_freq = some 1 ∧
      3 ∈ (lfu_put (lfu_put (lfu_put (lfu_init Nat Nat 2) 1 1) 2 2)
        3 3).key_to_iter ∧
      (lfu_put (lfu_put (lfu_put (lfu_init Nat Nat 2) 1 1) 2 2)
        3 3).min_freq = 1 ∧
      (lfu_put (lfu_put (lfu_put (lfu_init Nat Nat 2) 1 1) 2 2)
        3 3).cur_cnt =
        (lfu_put (lfu_put (lfu_init Nat Nat 2) 1 1) 2 2).cur_cnt ∧
      ∃ lst, alookup 1 (lfu_put (lfu_put (lfu_put (lfu_init Nat Nat 2) 1 1)
        2 2) 3 3).freq_to_list = some lst ∧
        lst.getLast? = some (3, 3)) ∧
    (lfu_get (lfu_put (lfu_put (lfu_put (lfu_init Nat Nat 2) 1 1) 2 2) 3 3)
      1).2 = none ∧
    (lfu_get (lfu_put (lfu_put (lfu_put (lfu_init Nat Nat 2) 1 1) 2 2) 3 3)
      2).2 = some 2 ∧
    (lfu_get (lfu_put (lfu_put (lfu_put (lfu_init Nat Nat 2) 1 1) 2 2) 3 3)
      3).2 = some 3 :=
  ⟨lfu_put_evicts_min_head (lfu_put (lfu_put (lfu_init Nat Nat 2) 1 1) 2 2)
      3 3 (by decide) (by decide) (by decide) (by decide),
    by decide, by decide, by decide⟩

/-- C5: every LFU operation — `get` (all four public variants) and every
`put` (value put, null-pointer put) — preserves the structural
invariant `LFUInv`: `|KF| = |KN| = Count ≤ Capacity`, every stored key's
locator resolves to a node inside the bucket of its recorded frequency,
every bucket present in `FB` is non-empty, and when `Count > 0`,
`MinFreq` is the minimum frequency present in `FB`. -/
theorem lfu_operations_preserve_invariant (s : LFUState K V) (k : K) (v : V)
    (hinv : LFUInv s) :
    LFUInv (lfu_get s k).1 ∧ LFUInv (lfu_get_b s k).1 ∧
    LFUInv (lfu_get_copy s k).1 ∧ LFUInv (lfu_get_locked s k).1 ∧
    LFUInv (lfu_put s k v) ∧ LFUInv (lfu_put_impl s k none) ∧
    LFUInv (lfu_put_impl s k (some v)) :=
  ⟨lfu_get_preserves s k hinv, lfu_get_preserves s k hinv,
    lfu_get_preserves s k hinv, lfu_get_preserves s k hinv,
    lfu_put_impl_preserves s k (some v) hinv,
    lfu_put_impl_preserves s k none hinv,
    lfu_put_impl_preserves s k (some v) hinv⟩

/-- Witness for C5 at the spec scenario state: the invariant holds after
`put(1,10); put(2,20)` on `LFU(2)` and is preserved by `get 1` and
`put 3 30` there. -/
theorem lfu_operations_preserve_invariant_witness :
    LFUInv (lfu_get (lfu_put (lfu_put (lfu_init Nat Nat 2) 1 10) 2 20) 1).1 ∧
    LFUInv (lfu_put (lfu_put (lfu_put (lfu_init Nat Nat 2) 1 10) 2 20) 3 30) :=
  ⟨(lfu_operations_preserve_invariant
      (lfu_put (lfu_put (lfu_init Nat Nat 2) 1 10) 2 20) 1 30 (by decide)).1,
    (lfu_operations_preserve_invariant
      (lfu_put (lfu_put (lfu_init Nat Nat 2) 1 10) 2 20) 3 30 (by decide)).2.2.2.2.1⟩

/-! ### Theorem: failure paths are pure (C10) -/

/-- C10: in the sequential embedding, every public boolean operation
leaves the observable state of its instance unchanged whenever it
reports failure: the ring's `try_enqueue`/`try_dequeue`, BoundCounter's
`try_add`/`try_sub`, `Bucket::consume`, LFU `get` on an absent key,
`AtomicClamp::clamp_to`, `MinMax::update_min`/`update_max` (both the
floating-point and the integer instantiations), and
`RateLimiterCounter::allow`. -/
theorem failure_paths_leave_state_unchanged :
    (∀ (A : Type) (Cap : Nat) (s : RingState A) (x : A) (s' : RingState A),
      enqueue_impl Cap s x = some (s', false) → s' = s) ∧
    (∀ (A : Type) (Cap : Nat) (s s' : RingState A) (r : Option A),
      try_dequeue Cap s = some (s', (false, r)) → s' = s ∧ r = none) ∧
    (∀ (s : BoundCounter) (v : Int),
      (try_add s v).2 = false → (try_add s v).1 = s) ∧
    (∀ (s : BoundCounter) (v : Int),
      (try_sub s v).2 = false → (try_sub s v).1 = s) ∧
    (∀ cur n : ℚ, (consume cur n).2 = false → (consume cur n).1 = cur) ∧
    (∀ (K V : Type) (instK : DecidableEq K) (s : LFUState K V) (k : K),
      @alookup K Nat instK k s.key_to_freq = none →
      @lfu_get K V instK s k = (s, none)) ∧
    (∀ cur low high : Int,
      (clamp_to cur low high).2 = false → (clamp_to cur low high).1 = cur) ∧
    (∀ cur v : Option ℚ,
      (update_min cur v).2 = false → (update_min cur v).1 = cur) ∧
    (∀ cur v : Option ℚ,
      (update_max cur v).2 = false → (update_max cur v).1 = cur) ∧
    (∀ cur v : Int,
      (int_update_min cur v).2 = false → (int_update_min cur v).1 = cur) ∧
    (∀ cur v : Int,
      (int_update_max cur v).2 = false → (int_update_max cur v).1 = cur) ∧
    (∀ (s : RateLimiter) (now : Int),
      (allow s now).2 = false → (allow s now).1 = s) := by
  refine ⟨?_, ?_, ?_, ?_, ?_, ?_, ?_, ?_, ?_, ?_, ?_, ?_⟩
  · intro A Cap s x s' h
    simp only [enqueue_impl] at h
    split_ifs at h <;> simp_all
  · intro A Cap s s' r h
    simp only [try_dequeue] at h
    split_ifs at h <;> simp_all
  · intro s v h
    unfold try_add at h ⊢
    split_ifs at h ⊢ <;> simp_all
  · intro s v h
    unfold try_sub at h ⊢
    split_ifs at h ⊢ <;> simp_all
  · intro cur n h
    unfold consume at h ⊢
    split_ifs at h ⊢ <;> simp_all
  · intro K V instK s k h
    simp only [lfu_get, h]
  · intro cur low high h
    unfold clamp_to at h ⊢
    split_ifs at h ⊢ <;> simp_all
  · intro cur v h
    cases v with
    | none => rfl
    | some vv =>
      cases cur with
      | none => simp [update_min] at h
      | some cc =>
        simp only [update_min] at h ⊢
        split_ifs at h ⊢ <;> simp_all
  · intro cur v h
    cases v with
    | none => rfl
    | some vv =>
      cases cur with
      | none => simp [update_max] at h
      | some cc =>
        simp only [update_max] at h ⊢
        split_ifs at h ⊢ <;> simp_all
  · intro cur v h
    unfold int_update_min at h ⊢
    split_ifs at h ⊢ <;> simp_all
  · intro cur v h
    unfold int_update_max at h ⊢
    split_ifs at h ⊢ <;> simp_all
  · intro s now h
    unfold allow at h ⊢
    split_ifs at h ⊢ <;> simp_all

/-- Witness for C10 at concrete failures: a rejected `try_add` on
`BoundCounter(5)` holding 3, an insufficient-token `consume`, an
in-range `clamp_to`, and a full-window `allow` all leave their state
unchanged. -/
theorem failure_paths_leave_state_unchanged_witness :
    (try_add ⟨5, 3⟩ 3).1 = ⟨5, 3⟩ ∧
    (consume 5 10).1 = 5 ∧
    (clamp_to 5 0 10).1 = 5 ∧
    (allow ⟨50, 3, 3, 0⟩ 10).1 = ⟨50, 3, 3, 0⟩ :=
  ⟨failure_paths_leave_state_unchanged.2.2.1 ⟨5, 3⟩ 3 (by decide),
    failure_paths_leave_state_unchanged.2.2.2.2.1 5 10 (by norm_num [consume]),
    failure_paths_leave_state_unchanged.2.2.2.2.2.2.1 5 0 10 (by decide),
    failure_paths_leave_state_unchanged.2.2.2.2.2.2.2.2.2.2.2 ⟨50, 3, 3, 0⟩ 10
      (by decide)⟩

end AtomicLib
